import Mathlib

set_option linter.unusedVariables false

/-!
Shallow embedding of the zashboard network-topology visualizer core
(graph builder, link builder, particle system, wheel zoom, hover sets),
with theorems checking the specification's claims against the code.

Numbers (`number` in the source) are modelled as `ℚ`; JS `Map`s are
modelled as association lists that preserve insertion order; JS `Set`s
as lists queried by membership.
-/

namespace Zashboard

attribute [local semireducible] Rat.add Rat.mul Rat.sub Rat.inv Rat.ofScientific

/-- JS `String.prototype.trim`, modelled executably: drop whitespace from
both ends of the character list. -/
def jsTrim (s : String) : String :=
  ⟨((s.data.dropWhile Char.isWhitespace).reverse.dropWhile Char.isWhitespace).reverse⟩

/-- Node kinds of the topology graph (`NodeType` in the source). -/
inductive NodeType where
  | client
  | rule
  | group
  | proxy
deriving DecidableEq, Repr

/-- A routing rule record (`Rule` in `@/types`): `{ type, payload, proxy }`. -/
structure Rule where
  type : String
  payload : String
  proxy : String
deriving DecidableEq, Repr

/-- A connection record, restricted to the fields the topology core reads:
`chains` (leaf-first hop names), `metadata.sourceIP` (empty string models a
missing IP), instantaneous `uploadSpeed`/`downloadSpeed`, and the
connection's own `rule`/`rulePayload` strings. -/
structure Connection where
  chains : List String
  sourceIP : String
  uploadSpeed : ℚ
  downloadSpeed : ℚ
  rule : String
  rulePayload : String
deriving DecidableEq, Repr

/-- `normalizeName` from the source: trim surrounding whitespace. -/
def normalizeName (s : String) : String := jsTrim s

/-- JS `Math.round` on the rationals: round half toward positive infinity. -/
def jsRound (q : ℚ) : ℤ := ⌊q + 1 / 2⌋

/-- `[...(conn.chains || [])].reverse().map(normalizeName)`: the chain in
root-to-leaf order, each hop trimmed. -/
def chainReversedOf (c : Connection) : List String :=
  c.chains.reverse.map normalizeName

/-- Lookup in a rules-by-proxy map. The map is an insertion-ordered
association list built with JS `Map.set` semantics, so a later binding
wins: the lookup scans from the most recent binding. -/
def rulesMapGet (rules : List (String × Rule)) (k : String) : Option Rule :=
  (rules.reverse.find? (fun p => p.1 == k)).map (·.2)

/-- `useRulesByProxyNormalized`: index the rules by trimmed proxy name. -/
def useRulesByProxyNormalized (rules : List Rule) : List (String × Rule) :=
  rules.map (fun r => (normalizeName r.proxy, r))

/-- `useGroupNameSet`: the trimmed proxy-group names (a JS `Set`,
modelled as a list queried with `contains`). -/
def useGroupNameSet (proxyGroupList : List String) : List String :=
  proxyGroupList.map normalizeName

/-! ## Composable implementation: nodes, links and the level guard
(`src/composables/topology/core.ts`, `layout.ts`) -/

/-- `LAYOUT_CONSTANTS.PADDING`. -/
def PADDING : ℚ := 50

/-- `LAYOUT_CONSTANTS.COLUMN_SPACING`. -/
def COLUMN_SPACING : ℚ := 300

/-- A laid-out node of the composable implementation (`Node` in
`composables/topology/types.ts`). -/
structure Node where
  id : String
  label : String
  x : ℚ
  y : ℚ
  type : NodeType
  connections : ℕ
  traffic : ℚ
deriving DecidableEq, Repr

/-- A link of the composable implementation (`Link`). -/
structure Link where
  source : Node
  target : Node
  upTraffic : ℚ
  downTraffic : ℚ
  traffic : ℚ
  connections : List Connection
deriving DecidableEq, Repr

/-- The `levelOf` helper inside `addOrUpdateLink`:
`Math.round((n.x - PADDING) / COLUMN_SPACING)`. -/
def levelOf (n : Node) : ℤ := jsRound ((n.x - PADDING) / COLUMN_SPACING)

/-- The push-or-update part of `addOrUpdateLink`: find the first link with
the same source and target ids and accumulate onto it, else push a new
link at the end. -/
def addOrUpdateLinkGo (source target : Node) (upTraffic downTraffic : ℚ)
    (conn : Connection) : List Link → List Link
  | [] =>
      [{ source := source, target := target, upTraffic := upTraffic,
         downTraffic := downTraffic, traffic := upTraffic + downTraffic,
         connections := [conn] }]
  | l :: rest =>
      if l.source.id == source.id && l.target.id == target.id then
        { l with upTraffic := l.upTraffic + upTraffic,
                 downTraffic := l.downTraffic + downTraffic,
                 traffic := (l.upTraffic + upTraffic) + (l.downTraffic + downTraffic),
                 connections := l.connections ++ [conn] } :: rest
      else
        l :: addOrUpdateLinkGo source target upTraffic downTraffic conn rest

/-- `addOrUpdateLink` from `core.ts`: drop the link when the target's
column is not strictly greater than the source's, otherwise accumulate
onto the existing link or push a new one. -/
def addOrUpdateLink (links : List Link) (source target : Node)
    (upTraffic downTraffic : ℚ) (conn : Connection) : List Link :=
  if levelOf target ≤ levelOf source then links
  else addOrUpdateLinkGo source target upTraffic downTraffic conn links

/-- `new Map(nodes.map(n => [n.id, n])).get(id)`: with duplicate ids the
later entry wins. -/
def nodeMapGet (nodes : List Node) (id : String) : Option Node :=
  nodes.reverse.find? (fun n => n.id == id)

/-- One step of the chain walk in `useLinks`: link the current node to the
group node named `name` if it exists, else to the proxy node. -/
def linkStep (nodes : List Node) (upTraffic downTraffic : ℚ) (conn : Connection)
    (st : List Link × Node) (name : String) : List Link × Node :=
  match nodeMapGet nodes ("group-" ++ name) with
  | some groupNode =>
      (addOrUpdateLink st.1 st.2 groupNode upTraffic downTraffic conn, groupNode)
  | none =>
      match nodeMapGet nodes ("proxy-" ++ name) with
      | some proxyNode =>
          (addOrUpdateLink st.1 st.2 proxyNode upTraffic downTraffic conn, proxyNode)
      | none => st

/-- The per-connection body of `useLinks`: skip connections without a
client node or chain data, link client to the matching rule node when the
rule column is shown, then walk the reversed chain. -/
def processConnLinks (nodes : List Node) (gset : List String)
    (rulesByProxyNormalized : List (String × Rule)) (hasRuleColumn : Bool)
    (links : List Link) (conn : Connection) : List Link :=
  let up := conn.uploadSpeed
  let down := conn.downloadSpeed
  let clientId := "client-" ++ (if conn.sourceIP = "" then "inner" else conn.sourceIP)
  match nodeMapGet nodes clientId with
  | none => links
  | some clientNode =>
      if conn.chains.isEmpty then links
      else
        let reversed := chainReversedOf conn
        let root := reversed.headD ""
        let st₀ : List Link × Node :=
          match rulesMapGet rulesByProxyNormalized root with
          | some matchingRule =>
              if hasRuleColumn then
                match nodeMapGet nodes
                    ("rule-" ++ matchingRule.type ++ "-" ++ matchingRule.payload
                      ++ "-" ++ matchingRule.proxy) with
                | some ruleNode =>
                    (addOrUpdateLink links clientNode ruleNode up down conn, ruleNode)
                | none => (links, clientNode)
              else (links, clientNode)
          | none => (links, clientNode)
        (reversed.foldl (linkStep nodes up down conn) st₀).1

/-- `useLinks`: fold the per-connection walk over the active connections,
starting from an empty link list. -/
def useLinks (nodes : List Node) (gset : List String)
    (rulesByProxyNormalized : List (String × Rule)) (hasRuleColumn : Bool)
    (activeConnections : List Connection) : List Link :=
  activeConnections.foldl
    (processConnLinks nodes gset rulesByProxyNormalized hasRuleColumn) []

/-! ### Level-invariant lemmas for the link builder -/

/-- Every link produced by `addOrUpdateLinkGo` either is the freshly pushed
link or has the source/target of a link already present. -/
theorem mem_addOrUpdateLinkGo {source target : Node} {up down : ℚ}
    {conn : Connection} {links : List Link} {l : Link}
    (h : l ∈ addOrUpdateLinkGo source target up down conn links) :
    (l.source = source ∧ l.target = target) ∨
      ∃ l₀ ∈ links, l.source = l₀.source ∧ l.target = l₀.target := by
  induction links with
  | nil =>
      simp only [addOrUpdateLinkGo, List.mem_singleton] at h
      subst h; exact Or.inl ⟨rfl, rfl⟩
  | cons hd tl ih =>
      simp only [addOrUpdateLinkGo] at h
      by_cases hc : (hd.source.id == source.id && hd.target.id == target.id) = true
      · rw [if_pos hc] at h
        rcases List.mem_cons.mp h with h' | h'
        · exact Or.inr ⟨hd, List.mem_cons_self .., by simp [h']⟩
        · exact Or.inr ⟨l, List.mem_cons_of_mem _ h', rfl, rfl⟩
      · rw [if_neg hc] at h
        rcases List.mem_cons.mp h with h' | h'
        · exact Or.inr ⟨hd, List.mem_cons_self .., by simp [h']⟩
        · rcases ih h' with h'' | ⟨l₀, hl₀, h₁, h₂⟩
          · exact Or.inl h''
          · exact Or.inr ⟨l₀, List.mem_cons_of_mem _ hl₀, h₁, h₂⟩

/-- `addOrUpdateLink` preserves the strict-level invariant. -/
theorem addOrUpdateLink_inv {links : List Link} {source target : Node}
    {up down : ℚ} {conn : Connection}
    (hinv : ∀ l ∈ links, levelOf l.source < levelOf l.target) :
    ∀ l ∈ addOrUpdateLink links source target up down conn,
      levelOf l.source < levelOf l.target := by
  intro l hl
  unfold addOrUpdateLink at hl
  by_cases hle : levelOf target ≤ levelOf source
  · rw [if_pos hle] at hl; exact hinv l hl
  · rw [if_neg hle] at hl
    rcases mem_addOrUpdateLinkGo hl with ⟨hs, ht⟩ | ⟨l₀, hl₀, hs, ht⟩
    · rw [hs, ht]; exact lt_of_not_le hle
    · rw [hs, ht]; exact hinv l₀ hl₀

/-- The chain walk of `useLinks` preserves the strict-level invariant. -/
theorem foldl_linkStep_inv (nodes : List Node) (up down : ℚ) (conn : Connection)
    (names : List String) (st : List Link × Node)
    (hinv : ∀ l ∈ st.1, levelOf l.source < levelOf l.target) :
    ∀ l ∈ (names.foldl (linkStep nodes up down conn) st).1,
      levelOf l.source < levelOf l.target := by
  induction names generalizing st with
  | nil => exact hinv
  | cons name rest ih =>
      refine ih _ ?_
      unfold linkStep
      cases nodeMapGet nodes ("group-" ++ name) with
      | some groupNode => exact addOrUpdateLink_inv hinv
      | none =>
          cases nodeMapGet nodes ("proxy-" ++ name) with
          | some proxyNode => exact addOrUpdateLink_inv hinv
          | none => exact hinv

/-- The per-connection link walk preserves the strict-level invariant. -/
theorem processConnLinks_inv (nodes : List Node) (gset : List String)
    (rules : List (String × Rule)) (hasRuleColumn : Bool)
    (links : List Link) (conn : Connection)
    (hinv : ∀ l ∈ links, levelOf l.source < levelOf l.target) :
    ∀ l ∈ processConnLinks nodes gset rules hasRuleColumn links conn,
      levelOf l.source < levelOf l.target := by
  intro l hl
  simp only [processConnLinks] at hl
  split at hl
  · exact hinv l hl
  · split at hl
    · exact hinv l hl
    · refine foldl_linkStep_inv nodes _ _ _ _ _ ?_ l hl
      split
      · split
        · split
          · exact addOrUpdateLink_inv hinv
          · exact hinv
        · exact hinv
      · exact hinv

/-- **C1.** Every link built by `useLinks` goes from a node at some column
to a node at a strictly greater column, and `addOrUpdateLink` drops (returns
the link list unchanged on) any candidate edge whose target column is not
strictly greater than its source column. -/
theorem links_connect_strictly_increasing_columns :
    (∀ (nodes : List Node) (gset : List String) (rules : List (String × Rule))
        (hasRuleColumn : Bool) (conns : List Connection),
      ∀ l ∈ useLinks nodes gset rules hasRuleColumn conns,
        levelOf l.source < levelOf l.target) ∧
    (∀ (links : List Link) (source target : Node) (up down : ℚ) (conn : Connection),
      levelOf target ≤ levelOf source →
        addOrUpdateLink links source target up down conn = links) := by
  constructor
  · intro nodes gset rules hasRuleColumn conns
    unfold useLinks
    generalize hstart : ([] : List Link) = start
    have hinv : ∀ l ∈ start, levelOf l.source < levelOf l.target := by
      rw [← hstart]; intro l hl; cases hl
    clear hstart
    induction conns generalizing start with
    | nil => exact hinv
    | cons c rest ih =>
        exact ih _ (processConnLinks_inv nodes gset rules hasRuleColumn start c hinv)
  · intro links source target up down conn h
    unfold addOrUpdateLink
    rw [if_pos h]

/-- A concrete client node used to exercise the link builder. -/
def clientNodeW : Node :=
  { id := "client-1.2.3.4", label := "1.2.3.4", x := 50, y := 50,
    type := .client, connections := 1, traffic := 3 }

/-- A concrete proxy node two columns to the right of the client. -/
def proxyNodeW : Node :=
  { id := "proxy-P", label := "P", x := 650, y := 50,
    type := .proxy, connections := 0, traffic := 0 }

/-- A concrete connection through proxy `P`. -/
def connW : Connection :=
  { chains := ["P"], sourceIP := "1.2.3.4", uploadSpeed := 1,
    downloadSpeed := 2, rule := "DIRECT", rulePayload := "" }

/-- The link `useLinks` builds for `connW`. -/
def linkW : Link :=
  { source := clientNodeW, target := proxyNodeW, upTraffic := 1,
    downTraffic := 2, traffic := 3, connections := [connW] }

/-- Witness for `links_connect_strictly_increasing_columns`: on a concrete
graph the produced link climbs columns, and a same-column candidate link is
dropped. -/
theorem links_connect_strictly_increasing_columns_witness :
    (linkW ∈ useLinks [clientNodeW, proxyNodeW] [] [] false [connW] ∧
      levelOf linkW.source < levelOf linkW.target) ∧
    addOrUpdateLink [] clientNodeW clientNodeW 1 2 connW = [] :=
  ⟨⟨by decide,
    links_connect_strictly_increasing_columns.1
      [clientNodeW, proxyNodeW] [] [] false [connW] linkW (by decide)⟩,
    links_connect_strictly_increasing_columns.2
      [] clientNodeW clientNodeW 1 2 connW (by decide)⟩

/-! ## The Konva implementation's `GraphBuilder`
(`src/components/topology/utils.ts`, class `GraphBuilder`) -/

namespace GraphBuilder

/-- A raw graph node (`GraphNode` in `components/topology/types.ts`). -/
structure GraphNode where
  id : String
  label : String
  type : NodeType
  col : ℕ
  x : ℚ
  y : ℚ
deriving DecidableEq, Repr

/-- A raw graph edge (`GraphEdge`); `from`/`to` of the source are named
`fromId`/`toId` because `from` is reserved in Lean. -/
structure GraphEdge where
  id : String
  fromId : String
  toId : String
  weight : ℚ
  up : ℚ
  down : ℚ
deriving DecidableEq, Repr

/-- The builder's private mutable state: insertion-ordered node and edge
maps plus the running maximum column. -/
structure BuilderState where
  nodesById : List GraphNode
  edgesById : List GraphEdge
  maxCol : ℕ
deriving DecidableEq, Repr

/-- `GraphData` as produced by `generateGraphData` (width/height are left
to the layout calculator). -/
structure GraphData where
  width : ℚ
  height : ℚ
  nodes : List GraphNode
  edges : List GraphEdge
  maxWeight : ℚ
deriving DecidableEq, Repr

/-- `reset`: clear both maps and the maximum column. -/
def reset (_ : BuilderState) : BuilderState :=
  { nodesById := [], edgesById := [], maxCol := 0 }

/-- Create-or-update on the node map (`addNode` body): an existing node
keeps its identity, its column is raised if the new column is greater, and
a non-empty differing label overwrites; a missing node is appended. -/
def addNodeGo (id label : String) (type : NodeType) (col : ℕ) :
    List GraphNode → List GraphNode
  | [] => [{ id := id, label := label, type := type, col := col, x := 0, y := 0 }]
  | n :: rest =>
      if n.id == id then
        { n with col := if col > n.col then col else n.col,
                 label := if label ≠ "" ∧ n.label ≠ label then label else n.label } :: rest
      else n :: addNodeGo id label type col rest

/-- `addNode`: update the node map and the running `maxCol`. -/
def addNode (st : BuilderState) (id label : String) (type : NodeType) (col : ℕ) :
    BuilderState :=
  { st with nodesById := addNodeGo id label type col st.nodesById,
            maxCol := if col > st.maxCol then col else st.maxCol }

/-- Create-or-accumulate on the edge map (`addEdge` body), keyed by the
string `from ++ "->" ++ to`. -/
def addEdgeGo (fromId toId : String) (weight up down : ℚ) :
    List GraphEdge → List GraphEdge
  | [] => [{ id := fromId ++ "->" ++ toId, fromId := fromId, toId := toId,
             weight := weight, up := up, down := down }]
  | e :: rest =>
      if e.id == fromId ++ "->" ++ toId then
        { e with weight := e.weight + weight, up := e.up + up, down := e.down + down } :: rest
      else e :: addEdgeGo fromId toId weight up down rest

/-- `addEdge`: update the edge map. -/
def addEdge (st : BuilderState) (fromId toId : String) (weight up down : ℚ) :
    BuilderState :=
  { st with edgesById := addEdgeGo fromId toId weight up down st.edgesById }

/-- The consecutive-group depth of one reversed chain (the inner loop of
`calculateProxyColumn`): empty names are skipped, known groups extend the
run, the first other name stops it. -/
def chainGroupDepth (gset : List String) : List String → ℕ
  | [] => 0
  | name :: rest =>
      if name = "" then chainGroupDepth gset rest
      else if gset.contains name then chainGroupDepth gset rest + 1
      else 0

/-- `calculateProxyColumn`: `2 + maxGroupDepth` over all connections
(clients at column 0, rules at 1, groups from 2, proxies last). -/
def calculateProxyColumn (gset : List String) (conns : List Connection) : ℕ :=
  2 + conns.foldl (fun m c => max m (chainGroupDepth gset (chainReversedOf c))) 0

/-- The rule-node key chosen by `buildRuleNode`: from the matching rule of
the chain root when the lookup succeeds, else from the connection's own
rule fields. -/
def ruleKeyOf (rules : List (String × Rule)) (conn : Connection) : String :=
  let root := (chainReversedOf conn).headD ""
  match (if root = "" then none else rulesMapGet rules root) with
  | some r => "rule:" ++ (r.type ++ ":" ++ r.payload ++ ":" ++ normalizeName r.proxy)
  | none => "rule:" ++ (conn.rule ++ ":" ++ conn.rulePayload)

/-- The rule-node label chosen by `buildRuleNode`. -/
def ruleLabelOf (rules : List (String × Rule)) (conn : Connection) : String :=
  let root := (chainReversedOf conn).headD ""
  match (if root = "" then none else rulesMapGet rules root) with
  | some r => "[" ++ r.type ++ "] " ++ r.payload
  | none => jsTrim ("[" ++ conn.rule ++ "] " ++ conn.rulePayload)

/-- `buildRuleNode`: add the rule node at column 1 and return its key. -/
def buildRuleNode (rules : List (String × Rule)) (conn : Connection)
    (st : BuilderState) : BuilderState × String :=
  let ruleKey := ruleKeyOf rules conn
  (addNode st ruleKey (ruleLabelOf rules conn) .rule 1, ruleKey)

/-- The group-walk loop of `buildProxyChain`: walk the reversed chain,
adding a group node at column `2 + i` and an edge from the previous node
for every known group, stopping at the first non-group name (the leaf). -/
def groupLoop (gset : List String) (traffic up down : ℚ) :
    List String → ℕ → String → BuilderState → BuilderState × String × Option String
  | [], _, prevNode, st => (st, prevNode, none)
  | name :: rest, i, prevNode, st =>
      if name = "" then groupLoop gset traffic up down rest (i + 1) prevNode st
      else if gset.contains name then
        let groupId := "group:" ++ name
        let st := addNode st groupId name .group (2 + i)
        let st := addEdge st prevNode groupId traffic up down
        groupLoop gset traffic up down rest (i + 1) groupId st
      else (st, prevNode, some name)

/-- The fallback leaf scan of `buildProxyChain`: the first name in
root-to-leaf order that is not a known group. -/
def fallbackLeaf (gset : List String) : List String → Option String
  | [] => none
  | n :: rest => if gset.contains n then fallbackLeaf gset rest else some n

/-- `buildProxyChain`: run the group walk, find the leaf proxy and attach
it at the fixed proxy column (a falsy — empty — leaf adds nothing). -/
def buildProxyChain (gset : List String) (conn : Connection)
    (previousNodeId : String) (traffic up down : ℚ) (proxyColumn : ℕ)
    (st : BuilderState) : BuilderState :=
  let r := groupLoop gset traffic up down (chainReversedOf conn) 0 previousNodeId st
  let st := r.1
  let prevNode := r.2.1
  let leafName := match r.2.2 with
    | some n => some n
    | none => fallbackLeaf gset (chainReversedOf conn)
  match leafName with
  | some leaf =>
      if leaf = "" then st
      else
        let proxyId := "proxy:" ++ leaf
        let st := addNode st proxyId leaf .proxy proxyColumn
        let st := addEdge st prevNode proxyId traffic up down
        { st with maxCol := if proxyColumn > st.maxCol then proxyColumn else st.maxCol }
  | none => st

/-- `processConnection`: clamp speeds at 0, add the client node, the rule
node and the client→rule edge, then the proxy chain. -/
def processConnection (rules : List (String × Rule)) (gset : List String)
    (getClientLabel : String → String) (proxyColumn : ℕ)
    (st : BuilderState) (conn : Connection) : BuilderState :=
  let up := max 0 conn.uploadSpeed
  let down := max 0 conn.downloadSpeed
  let traffic := up + down
  let clientKey := "client:" ++ (if conn.sourceIP = "" then "inner" else conn.sourceIP)
  let clientLabel := getClientLabel conn.sourceIP
  let st := addNode st clientKey clientLabel .client 0
  let r := buildRuleNode rules conn st
  let st := addEdge r.1 clientKey r.2 traffic up down
  buildProxyChain gset conn r.2 traffic up down proxyColumn st

/-- `generateGraphData`: package the maps; `maxWeight` is the maximum edge
weight (0 for no edges). -/
def generateGraphData (st : BuilderState) : GraphData :=
  { width := 0, height := 0, nodes := st.nodesById, edges := st.edgesById,
    maxWeight := st.edgesById.foldl (fun m e => max m e.weight) 0 }

/-- `build`: reset the internal state, fix the proxy column, process every
connection, and package the result. -/
def build (rules : List (String × Rule)) (gset : List String)
    (st : BuilderState) (conns : List Connection)
    (getClientLabel : String → String) : BuilderState × GraphData :=
  let st := reset st
  let proxyColumn := calculateProxyColumn gset conns
  let st := conns.foldl (processConnection rules gset getClientLabel proxyColumn) st
  (st, generateGraphData st)

end GraphBuilder

/-- **C2.** `build` resets all internal builder state first, so its output
does not depend on the state left behind by any earlier build: two runs on
the same connection list, group-name set and rule map produce identical
node sets, edge sets and accumulated weights — in particular running
`build` twice in a row returns the same graph both times. -/
theorem build_is_deterministic :
    ∀ (rules : List (String × Rule)) (gset : List String)
      (getClientLabel : String → String) (conns : List Connection)
      (s₁ s₂ : GraphBuilder.BuilderState),
      (GraphBuilder.build rules gset s₁ conns getClientLabel).2 =
        (GraphBuilder.build rules gset s₂ conns getClientLabel).2 := by
  intro rules gset getClientLabel conns s₁ s₂
  rfl

/-! ### String helper lemmas: the four id templates never collide -/

/-- `String.append` concatenates the underlying character lists. -/
theorem string_data_append (a b : String) : (a ++ b).data = a.data ++ b.data := by
  cases a; cases b; rfl

/-- Two appends with literal heads starting in different characters are
different strings. -/
theorem string_append_ne_of_head {p q : String} {c d : Char} {cs ds : List Char}
    (hp : p.data = c :: cs) (hq : q.data = d :: ds) (hcd : c ≠ d)
    (a b : String) : p ++ a ≠ q ++ b := by
  intro h
  have h2 : (p ++ a).data = (q ++ b).data := congrArg String.data h
  rw [string_data_append, string_data_append, hp, hq] at h2
  simp only [List.cons_append, List.cons.injEq] at h2
  exact hcd h2.1

theorem client_ne_proxy (a b : String) : "client:" ++ a ≠ "proxy:" ++ b :=
  string_append_ne_of_head rfl rfl (by decide) a b

theorem rule_ne_proxy (a b : String) : "rule:" ++ a ≠ "proxy:" ++ b :=
  string_append_ne_of_head rfl rfl (by decide) a b

theorem group_ne_proxy (a b : String) : "group:" ++ a ≠ "proxy:" ++ b :=
  string_append_ne_of_head rfl rfl (by decide) a b

theorem client_ne_rule (a b : String) : "client:" ++ a ≠ "rule:" ++ b :=
  string_append_ne_of_head rfl rfl (by decide) a b

namespace GraphBuilder

/-- The per-build invariant behind the single proxy column: every node of
type `proxy` sits at the fixed proxy column and is keyed `proxy:<name>`,
and conversely every `proxy:`-keyed node has type `proxy`. -/
def ProxyColInv (pcol : ℕ) (nodes : List GraphNode) : Prop :=
  ∀ n ∈ nodes,
    (n.type = .proxy → n.col = pcol ∧ ∃ m, n.id = "proxy:" ++ m) ∧
    (∀ m, n.id = "proxy:" ++ m → n.type = .proxy)

/-- `addNodeGo` preserves the proxy-column invariant, provided the call is
either a proxy call at exactly the proxy column with a `proxy:` key, or a
non-proxy call whose key is not a `proxy:` key. -/
theorem proxyColInv_addNodeGo {pcol : ℕ} {nodes : List GraphNode}
    {id label : String} {type : NodeType} {col : ℕ}
    (hinv : ProxyColInv pcol nodes)
    (hcall : (type = .proxy ∧ col = pcol ∧ ∃ m, id = "proxy:" ++ m) ∨
             (type ≠ .proxy ∧ ∀ m, id ≠ "proxy:" ++ m)) :
    ProxyColInv pcol (addNodeGo id label type col nodes) := by
  induction nodes with
  | nil =>
      intro n hn
      simp only [addNodeGo, List.mem_singleton] at hn
      subst hn
      rcases hcall with ⟨ht, hc, hm⟩ | ⟨ht, hm⟩
      · exact ⟨fun _ => ⟨hc, hm⟩, fun _ _ => ht⟩
      · exact ⟨fun h => absurd h ht, fun m h => absurd h (hm m)⟩
  | cons hd tl ih =>
      intro n hn
      simp only [addNodeGo] at hn
      by_cases hb : (hd.id == id) = true
      · rw [if_pos hb] at hn
        have hid : hd.id = id := by simpa using hb
        have hhd := hinv hd (List.mem_cons_self ..)
        rcases List.mem_cons.mp hn with h' | h'
        · subst h'
          refine ⟨?_, ?_⟩
          · intro htyp
            simp only at htyp
            have h1 := hhd.1 htyp
            rcases hcall with ⟨ht, hc, hm⟩ | ⟨ht, hm⟩
            · constructor
              · simp only
                rw [h1.1, hc]
                simp
              · simpa using h1.2
            · exact absurd (hid ▸ h1.2) (by simpa using hm)
          · intro m hm'
            simp only at hm' ⊢
            exact hhd.2 m hm'
        · exact hinv n (List.mem_cons_of_mem _ h')
      · rw [if_neg hb] at hn
        rcases List.mem_cons.mp hn with h' | h'
        · exact h' ▸ hinv hd (List.mem_cons_self ..)
        · exact ih (fun n hn => hinv n (List.mem_cons_of_mem _ hn)) n h'

/-- `addNode` preserves the proxy-column invariant under the same call
classification. -/
theorem proxyColInv_addNode {pcol : ℕ} {st : BuilderState}
    {id label : String} {type : NodeType} {col : ℕ}
    (hinv : ProxyColInv pcol st.nodesById)
    (hcall : (type = .proxy ∧ col = pcol ∧ ∃ m, id = "proxy:" ++ m) ∨
             (type ≠ .proxy ∧ ∀ m, id ≠ "proxy:" ++ m)) :
    ProxyColInv pcol (addNode st id label type col).nodesById :=
  proxyColInv_addNodeGo hinv hcall

/-- `addEdge` does not touch the node map. -/
theorem addEdge_nodesById (st : BuilderState) (fromId toId : String)
    (weight up down : ℚ) :
    (addEdge st fromId toId weight up down).nodesById = st.nodesById := rfl

/-- The group walk preserves the proxy-column invariant. -/
theorem proxyColInv_groupLoop {pcol : ℕ} (gset : List String)
    (traffic up down : ℚ) (names : List String) (i : ℕ) (prevNode : String)
    (st : BuilderState) (hinv : ProxyColInv pcol st.nodesById) :
    ProxyColInv pcol
      (groupLoop gset traffic up down names i prevNode st).1.nodesById := by
  induction names generalizing i prevNode st with
  | nil => exact hinv
  | cons name rest ih =>
      simp only [groupLoop]
      by_cases h1 : name = ""
      · rw [if_pos h1]; exact ih _ _ _ hinv
      · rw [if_neg h1]
        by_cases h2 : gset.contains name
        · rw [if_pos h2]
          refine ih _ _ _ ?_
          rw [addEdge_nodesById]
          exact proxyColInv_addNode hinv
            (Or.inr ⟨by simp, fun m => group_ne_proxy name m⟩)
        · rw [if_neg h2]; exact hinv

/-- `buildProxyChain` preserves the proxy-column invariant when called with
the invariant's proxy column. -/
theorem proxyColInv_buildProxyChain {pcol : ℕ} (gset : List String)
    (conn : Connection) (previousNodeId : String) (traffic up down : ℚ)
    (st : BuilderState) (hinv : ProxyColInv pcol st.nodesById) :
    ProxyColInv pcol
      (buildProxyChain gset conn previousNodeId traffic up down pcol st).nodesById := by
  unfold buildProxyChain
  have hloop := proxyColInv_groupLoop gset traffic up down
    (chainReversedOf conn) 0 previousNodeId st hinv
  set r := groupLoop gset traffic up down (chainReversedOf conn) 0 previousNodeId st
  cases hleaf : (match r.2.2 with
      | some n => some n
      | none => fallbackLeaf gset (chainReversedOf conn)) with
  | none => simpa [hleaf] using hloop
  | some leaf =>
      simp only [hleaf]
      by_cases hl : leaf = ""
      · rw [if_pos hl]; exact hloop
      · rw [if_neg hl]
        rw [show ∀ s : BuilderState, ∀ m : ℕ,
              ({ s with maxCol := m } : BuilderState).nodesById = s.nodesById
            from fun _ _ => rfl]
        rw [addEdge_nodesById]
        exact proxyColInv_addNode hloop (Or.inl ⟨rfl, rfl, leaf, rfl⟩)

/-- `processConnection` preserves the proxy-column invariant when the fixed
proxy column matches the invariant's column. -/
theorem proxyColInv_processConnection {pcol : ℕ}
    (rules : List (String × Rule)) (gset : List String)
    (getClientLabel : String → String) (st : BuilderState) (conn : Connection)
    (hinv : ProxyColInv pcol st.nodesById) :
    ProxyColInv pcol
      (processConnection rules gset getClientLabel pcol st conn).nodesById := by
  unfold processConnection
  simp only
  refine proxyColInv_buildProxyChain _ _ _ _ _ _ _ ?_
  rw [addEdge_nodesById]
  unfold buildRuleNode
  simp only
  refine proxyColInv_addNode ?_ (Or.inr ⟨by simp, ?_⟩)
  · exact proxyColInv_addNode hinv
      (Or.inr ⟨by simp, fun m => client_ne_proxy _ m⟩)
  · intro m
    simp only [ruleKeyOf]
    split
    · exact rule_ne_proxy _ m
    · exact rule_ne_proxy _ m

/-! ### Node-id uniqueness in the builder -/

/-- Any id present after `addNodeGo` was present before or is the added id. -/
theorem mem_ids_addNodeGo {id label : String} {type : NodeType} {col : ℕ}
    {nodes : List GraphNode} {x : String}
    (hx : x ∈ (addNodeGo id label type col nodes).map (·.id)) :
    x ∈ nodes.map (·.id) ∨ x = id := by
  induction nodes with
  | nil =>
      simp only [addNodeGo, List.map_cons, List.map_nil, List.mem_singleton] at hx
      exact Or.inr hx
  | cons hd tl ih =>
      simp only [addNodeGo] at hx
      by_cases hb : (hd.id == id) = true
      · rw [if_pos hb] at hx
        simp only [List.map_cons, List.mem_cons] at hx
        rcases hx with h | h
        · exact Or.inl (by simp [h])
        · exact Or.inl (by simp [List.mem_cons]; right; simpa using h)
      · rw [if_neg hb] at hx
        simp only [List.map_cons, List.mem_cons] at hx
        rcases hx with h | h
        · exact Or.inl (by simp [h])
        · rcases ih h with h' | h'
          · exact Or.inl (by simp [List.mem_cons]; right; simpa using h')
          · exact Or.inr h'

/-- `addNodeGo` keeps the node ids duplicate-free. -/
theorem nodup_ids_addNodeGo {id label : String} {type : NodeType} {col : ℕ}
    {nodes : List GraphNode}
    (h : (nodes.map (·.id)).Nodup) :
    ((addNodeGo id label type col nodes).map (·.id)).Nodup := by
  induction nodes with
  | nil => simp [addNodeGo]
  | cons hd tl ih =>
      simp only [List.map_cons, List.nodup_cons] at h
      simp only [addNodeGo]
      by_cases hb : (hd.id == id) = true
      · rw [if_pos hb]
        simp only [List.map_cons, List.nodup_cons]
        exact ⟨h.1, h.2⟩
      · rw [if_neg hb]
        simp only [List.map_cons, List.nodup_cons]
        refine ⟨?_, ih h.2⟩
        intro hmem
        rcases mem_ids_addNodeGo hmem with h' | h'
        · exact h.1 h'
        · exact (by simpa using hb : ¬hd.id = id) h'

/-- The group walk keeps node ids duplicate-free. -/
theorem nodup_ids_groupLoop (gset : List String) (traffic up down : ℚ)
    (names : List String) (i : ℕ) (prevNode : String) (st : BuilderState)
    (h : (st.nodesById.map (·.id)).Nodup) :
    (((groupLoop gset traffic up down names i prevNode st).1.nodesById.map (·.id)).Nodup) := by
  induction names generalizing i prevNode st with
  | nil => exact h
  | cons name rest ih =>
      simp only [groupLoop]
      by_cases h1 : name = ""
      · rw [if_pos h1]; exact ih _ _ _ h
      · rw [if_neg h1]
        by_cases h2 : gset.contains name
        · rw [if_pos h2]
          exact ih _ _ _ (nodup_ids_addNodeGo h)
        · rw [if_neg h2]; exact h

/-- `buildProxyChain` keeps node ids duplicate-free. -/
theorem nodup_ids_buildProxyChain (gset : List String) (conn : Connection)
    (previousNodeId : String) (traffic up down : ℚ) (proxyColumn : ℕ)
    (st : BuilderState) (h : (st.nodesById.map (·.id)).Nodup) :
    (((buildProxyChain gset conn previousNodeId traffic up down proxyColumn
        st).nodesById.map (·.id)).Nodup) := by
  unfold buildProxyChain
  have hloop := nodup_ids_groupLoop gset traffic up down
    (chainReversedOf conn) 0 previousNodeId st h
  set r := groupLoop gset traffic up down (chainReversedOf conn) 0 previousNodeId st
  cases hleaf : (match r.2.2 with
      | some n => some n
      | none => fallbackLeaf gset (chainReversedOf conn)) with
  | none => simpa [hleaf] using hloop
  | some leaf =>
      simp only [hleaf]
      by_cases hl : leaf = ""
      · rw [if_pos hl]; exact hloop
      · rw [if_neg hl]
        exact nodup_ids_addNodeGo hloop

/-- `processConnection` keeps node ids duplicate-free. -/
theorem nodup_ids_processConnection (rules : List (String × Rule))
    (gset : List String) (getClientLabel : String → String) (proxyColumn : ℕ)
    (st : BuilderState) (conn : Connection)
    (h : (st.nodesById.map (·.id)).Nodup) :
    (((processConnection rules gset getClientLabel proxyColumn st
        conn).nodesById.map (·.id)).Nodup) := by
  unfold processConnection
  simp only
  refine nodup_ids_buildProxyChain _ _ _ _ _ _ _ _ ?_
  rw [addEdge_nodesById]
  unfold buildRuleNode
  simp only
  exact nodup_ids_addNodeGo (nodup_ids_addNodeGo h)

/-- The connection fold preserves both node invariants. -/
theorem nodesInv_foldl (rules : List (String × Rule)) (gset : List String)
    (getClientLabel : String → String) (pcol : ℕ) (conns : List Connection)
    (st : BuilderState)
    (h1 : ProxyColInv pcol st.nodesById)
    (h2 : (st.nodesById.map (·.id)).Nodup) :
    ProxyColInv pcol
        ((conns.foldl (processConnection rules gset getClientLabel pcol)
          st).nodesById) ∧
      (((conns.foldl (processConnection rules gset getClientLabel pcol)
          st).nodesById.map (·.id)).Nodup) := by
  induction conns generalizing st with
  | nil => exact ⟨h1, h2⟩
  | cons c rest ih =>
      exact ih _ (proxyColInv_processConnection rules gset getClientLabel st c h1)
        (nodup_ids_processConnection rules gset getClientLabel pcol st c h2)

end GraphBuilder

/-- **C3.** In every build, each proxy-typed node sits in the one shared
proxy column `calculateProxyColumn` (`2 + maxGroupDepth` over the whole
connection list), and node ids are unique, so any two connections reaching
the same proxy name share one node identity at that single column. -/
theorem proxy_nodes_share_single_column
    (rules : List (String × Rule)) (gset : List String)
    (getClientLabel : String → String) (conns : List Connection)
    (st : GraphBuilder.BuilderState) :
    (∀ n ∈ (GraphBuilder.build rules gset st conns getClientLabel).2.nodes,
        n.type = .proxy →
          n.col = GraphBuilder.calculateProxyColumn gset conns) ∧
      (((GraphBuilder.build rules gset st conns
          getClientLabel).2.nodes.map (·.id)).Nodup) := by
  have h := GraphBuilder.nodesInv_foldl rules gset getClientLabel
    (GraphBuilder.calculateProxyColumn gset conns) conns
    (GraphBuilder.reset st) (by intro n hn; cases hn) (by simp [GraphBuilder.reset])
  exact ⟨fun n hn ht => ((h.1 n hn).1 ht).1, h.2⟩

/-- First example connection: chain `["X","H"]` (leaf-first), one group. -/
def connDepth1 : Connection :=
  { chains := ["X", "H"], sourceIP := "1.1.1.1", uploadSpeed := 1,
    downloadSpeed := 0, rule := "RuleA", rulePayload := "a" }

/-- Second example connection: chain `["X","G3","G2","G1"]`, three groups. -/
def connDepth3 : Connection :=
  { chains := ["X", "G3", "G2", "G1"], sourceIP := "2.2.2.2", uploadSpeed := 2,
    downloadSpeed := 3, rule := "RuleB", rulePayload := "b" }

/-- The group-name set for the example. -/
def gsetW : List String := ["H", "G1", "G2", "G3"]

/-- The single coalesced proxy node the example build produces. -/
def proxyNodeXW : GraphBuilder.GraphNode :=
  { id := "proxy:" ++ "X", label := "X", type := .proxy, col := 5, x := 0, y := 0 }

/-- Witness for `proxy_nodes_share_single_column`: with group chains of
depth 1 and 3 both ending at proxy `X`, the build has a single `proxy:X`
node, the shared proxy column is `2 + 3`, and ids are duplicate-free. -/
theorem proxy_nodes_share_single_column_witness :
    proxyNodeXW ∈ (GraphBuilder.build [] gsetW ⟨[], [], 0⟩
        [connDepth1, connDepth3] (fun ip => ip)).2.nodes ∧
      GraphBuilder.calculateProxyColumn gsetW [connDepth1, connDepth3] = 2 + 3 ∧
      proxyNodeXW.col = GraphBuilder.calculateProxyColumn gsetW [connDepth1, connDepth3] ∧
      (((GraphBuilder.build [] gsetW ⟨[], [], 0⟩
          [connDepth1, connDepth3] (fun ip => ip)).2.nodes.map (·.id)).Nodup) :=
  ⟨by decide, by decide,
    (proxy_nodes_share_single_column [] gsetW (fun ip => ip)
        [connDepth1, connDepth3] ⟨[], [], 0⟩).1 proxyNodeXW (by decide) (by decide),
    (proxy_nodes_share_single_column [] gsetW (fun ip => ip)
        [connDepth1, connDepth3] ⟨[], [], 0⟩).2⟩

/-! ## C4: connections with empty chain data -/

/-- A connection whose `chains` list is empty. -/
def connEmptyW : Connection :=
  { chains := [], sourceIP := "9.9.9.9", uploadSpeed := 5, downloadSpeed := 7,
    rule := "Match", rulePayload := "" }

/-- **C4 counterexample.** A connection with an empty chain list is *not*
skipped by the graph builder: building from it alone still produces two
nodes (its client and fallback-rule node) and one edge, contradicting the
claim that it contributes no nodes and no edges. -/
theorem chainless_connection_not_skipped :
    (GraphBuilder.build [] [] ⟨[], [], 0⟩ [connEmptyW] (fun ip => ip)).2.nodes ≠ [] ∧
      (GraphBuilder.build [] [] ⟨[], [], 0⟩ [connEmptyW] (fun ip => ip)).2.nodes.length = 2 ∧
      (GraphBuilder.build [] [] ⟨[], [], 0⟩ [connEmptyW] (fun ip => ip)).2.edges.length = 1 := by
  refine ⟨?_, by decide, by decide⟩
  intro h
  have : (GraphBuilder.build [] [] ⟨[], [], 0⟩ [connEmptyW] (fun ip => ip)).2.nodes.length = 2 := by
    decide
  rw [h] at this
  cases this

/-- `processConnLinks` leaves the link list unchanged on a chainless
connection (the walk returns early). -/
theorem processConnLinks_chainless (nodes : List Node) (gset : List String)
    (rules : List (String × Rule)) (hasRuleColumn : Bool)
    (links : List Link) (c : Connection) (hc : c.chains = []) :
    processConnLinks nodes gset rules hasRuleColumn links c = links := by
  unfold processConnLinks
  simp only
  split
  · rfl
  · rw [if_pos (by simp [hc])]

/-- **C4 amended.** A chainless connection adds no links in `useLinks`
(removing it from the connection list leaves the result unchanged), and in
the `GraphBuilder` it contributes exactly its client node, its fallback
rule node and the single client→rule edge — no group or proxy nodes — and
no error is raised in either implementation. -/
theorem chainless_connection_contributions :
    (∀ (nodes : List Node) (gset : List String) (rules : List (String × Rule))
        (hasRuleColumn : Bool) (pre post : List Connection) (c : Connection),
      c.chains = [] →
        useLinks nodes gset rules hasRuleColumn (pre ++ c :: post) =
          useLinks nodes gset rules hasRuleColumn (pre ++ post)) ∧
    (∀ (rules : List (String × Rule)) (gset : List String)
        (getClientLabel : String → String) (st : GraphBuilder.BuilderState)
        (c : Connection), c.chains = [] →
      (GraphBuilder.build rules gset st [c] getClientLabel).2.nodes.map (·.type) =
          [.client, .rule] ∧
        (GraphBuilder.build rules gset st [c] getClientLabel).2.edges.length = 1) := by
  constructor
  · intro nodes gset rules hasRuleColumn pre post c hc
    unfold useLinks
    rw [List.foldl_append, List.foldl_append, List.foldl_cons,
      processConnLinks_chainless nodes gset rules hasRuleColumn _ c hc]
  · intro rules gset getClientLabel st c hc
    have hrev : chainReversedOf c = [] := by simp [chainReversedOf, hc]
    have hkey : GraphBuilder.ruleKeyOf rules c =
        "rule:" ++ (c.rule ++ ":" ++ c.rulePayload) := by
      unfold GraphBuilder.ruleKeyOf
      simp [hrev]
    have hbeq : (("client:" ++ (if c.sourceIP = "" then "inner" else c.sourceIP)) ==
        ("rule:" ++ (c.rule ++ ":" ++ c.rulePayload))) = false := by
      rw [beq_eq_false_iff_ne]
      exact client_ne_rule _ _
    constructor <;>
      simp [GraphBuilder.build, GraphBuilder.reset, GraphBuilder.processConnection,
        GraphBuilder.buildRuleNode, hkey, GraphBuilder.addNode, GraphBuilder.addNodeGo,
        hbeq, GraphBuilder.addEdge, GraphBuilder.addEdgeGo, GraphBuilder.buildProxyChain,
        hrev, GraphBuilder.groupLoop, GraphBuilder.fallbackLeaf,
        GraphBuilder.generateGraphData]

/-- Witness for `chainless_connection_contributions` at concrete inputs:
dropping the chainless connection from a list leaves `useLinks` unchanged,
and a single-connection build from it has just client and rule nodes and
one edge. -/
theorem chainless_connection_contributions_witness :
    useLinks [clientNodeW, proxyNodeW] [] [] false [connW, connEmptyW] =
        useLinks [clientNodeW, proxyNodeW] [] [] false [connW] ∧
      ((GraphBuilder.build [] [] ⟨[], [], 0⟩ [connEmptyW] (fun ip => ip)).2.nodes.map
          (·.type) = [.client, .rule] ∧
        (GraphBuilder.build [] [] ⟨[], [], 0⟩ [connEmptyW] (fun ip => ip)).2.edges.length = 1) :=
  ⟨chainless_connection_contributions.1 [clientNodeW, proxyNodeW] [] [] false
      [connW] [] connEmptyW (by decide),
    chainless_connection_contributions.2 [] [] (fun ip => ip) ⟨[], [], 0⟩
      connEmptyW (by decide)⟩

/-! ## C5: one edge per hop pair, with accumulated magnitudes -/

namespace GraphBuilder

/-- One `addEdge` invocation, recorded as data. -/
structure EdgeCall where
  fromId : String
  toId : String
  weight : ℚ
  up : ℚ
  down : ℚ
deriving DecidableEq, Repr

/-- The edge-map key an `addEdge` invocation uses. -/
def callId (c : EdgeCall) : String := c.fromId ++ "->" ++ c.toId

/-- Replay a list of `addEdge` invocations on an edge map. -/
def applyCalls (es : List GraphEdge) (cs : List EdgeCall) : List GraphEdge :=
  cs.foldl (fun es c => addEdgeGo c.fromId c.toId c.weight c.up c.down es) es

/-- The `addEdge` invocations of the group walk, together with the walk's
final previous-node id and leaf name (mirrors `groupLoop` without state). -/
def callsGroupLoop (gset : List String) (traffic up down : ℚ) :
    List String → ℕ → String → List EdgeCall × String × Option String
  | [], _, prevNode => ([], prevNode, none)
  | name :: rest, i, prevNode =>
      if name = "" then callsGroupLoop gset traffic up down rest (i + 1) prevNode
      else if gset.contains name then
        let groupId := "group:" ++ name
        let r := callsGroupLoop gset traffic up down rest (i + 1) groupId
        (⟨prevNode, groupId, traffic, up, down⟩ :: r.1, r.2)
      else ([], prevNode, some name)

/-- The `addEdge` invocations of `buildProxyChain`: the group-walk edges
followed by the proxy edge (when a usable leaf exists). -/
def callsProxyChain (gset : List String) (traffic up down : ℚ)
    (conn : Connection) (prevId : String) : List EdgeCall :=
  let r := callsGroupLoop gset traffic up down (chainReversedOf conn) 0 prevId
  let leafName := match r.2.2 with
    | some n => some n
    | none => fallbackLeaf gset (chainReversedOf conn)
  r.1 ++
    (match leafName with
     | some leaf =>
         if leaf = "" then []
         else [⟨r.2.1, "proxy:" ++ leaf, traffic, up, down⟩]
     | none => [])

/-- All `addEdge` invocations `processConnection` makes for one
connection: client→rule, the group-walk edges, then the proxy edge. -/
def callsOfConn (rules : List (String × Rule)) (gset : List String)
    (conn : Connection) : List EdgeCall :=
  let up := max 0 conn.uploadSpeed
  let down := max 0 conn.downloadSpeed
  let traffic := up + down
  let clientKey := "client:" ++ (if conn.sourceIP = "" then "inner" else conn.sourceIP)
  let ruleKey := ruleKeyOf rules conn
  ⟨clientKey, ruleKey, traffic, up, down⟩ ::
    callsProxyChain gset traffic up down conn ruleKey

/-- `addNode` does not touch the edge map. -/
theorem addNode_edgesById (st : BuilderState) (id label : String)
    (type : NodeType) (col : ℕ) :
    (addNode st id label type col).edgesById = st.edgesById := rfl

/-- The group walk's effect on the edge map is exactly the replay of its
recorded calls, and its returned previous node and leaf agree with the
recorded walk. -/
theorem groupLoop_edges (gset : List String) (traffic up down : ℚ)
    (names : List String) (i : ℕ) (prevNode : String) (st : BuilderState) :
    (groupLoop gset traffic up down names i prevNode st).1.edgesById =
        applyCalls st.edgesById
          (callsGroupLoop gset traffic up down names i prevNode).1 ∧
      (groupLoop gset traffic up down names i prevNode st).2.1 =
        (callsGroupLoop gset traffic up down names i prevNode).2.1 ∧
      (groupLoop gset traffic up down names i prevNode st).2.2 =
        (callsGroupLoop gset traffic up down names i prevNode).2.2 := by
  induction names generalizing i prevNode st with
  | nil => exact ⟨rfl, rfl, rfl⟩
  | cons name rest ih =>
      simp only [groupLoop, callsGroupLoop]
      by_cases h1 : name = ""
      · rw [if_pos h1, if_pos h1]
        exact ih _ _ _
      · rw [if_neg h1, if_neg h1]
        by_cases h2 : gset.contains name
        · rw [if_pos h2, if_pos h2]
          simp only
          exact ih _ _ _
        · rw [if_neg h2, if_neg h2]
          exact ⟨rfl, rfl, rfl⟩

/-- `buildProxyChain`'s effect on the edge map is the replay of
`callsProxyChain`. -/
theorem buildProxyChain_edges (gset : List String) (conn : Connection)
    (prevId : String) (traffic up down : ℚ) (pcol : ℕ) (st : BuilderState) :
    (buildProxyChain gset conn prevId traffic up down pcol st).edgesById =
      applyCalls st.edgesById (callsProxyChain gset traffic up down conn prevId) := by
  obtain ⟨h1, h2, h3⟩ := groupLoop_edges gset traffic up down
    (chainReversedOf conn) 0 prevId st
  simp only [buildProxyChain, callsProxyChain, h2, h3]
  cases hleaf : (match (callsGroupLoop gset traffic up down (chainReversedOf conn)
      0 prevId).2.2 with
    | some n => some n
    | none => fallbackLeaf gset (chainReversedOf conn)) with
  | none =>
      simp only [hleaf, List.append_nil]
      exact h1
  | some leaf =>
      simp only [hleaf]
      by_cases hl : leaf = ""
      · simp only [if_pos hl, List.append_nil]
        exact h1
      · simp only [if_neg hl]
        show (addEdge _ _ _ _ _ _).edgesById = _
        simp only [addEdge, addNode_edgesById, h1, applyCalls,
          List.foldl_append, List.foldl_cons, List.foldl_nil]

/-- `processConnection`'s effect on the edge map is the replay of
`callsOfConn`. -/
theorem processConnection_edges (rules : List (String × Rule))
    (gset : List String) (getClientLabel : String → String) (pcol : ℕ)
    (st : BuilderState) (conn : Connection) :
    (processConnection rules gset getClientLabel pcol st conn).edgesById =
      applyCalls st.edgesById (callsOfConn rules gset conn) := by
  simp only [processConnection, buildRuleNode, callsOfConn]
  rw [buildProxyChain_edges]
  simp only [addEdge, addNode_edgesById, applyCalls, List.foldl_cons]

/-- Lookup of an edge by its map key. -/
def findEdge (es : List GraphEdge) (k : String) : Option GraphEdge :=
  es.find? (fun e => e.id == k)

/-- The accumulated upload on the edge keyed `k` (0 when absent). -/
def upOf (es : List GraphEdge) (k : String) : ℚ :=
  match findEdge es k with
  | some e => e.up
  | none => 0

/-- The accumulated download on the edge keyed `k` (0 when absent). -/
def downOf (es : List GraphEdge) (k : String) : ℚ :=
  match findEdge es k with
  | some e => e.down
  | none => 0

/-- The source/target pair of the edge keyed `k`. -/
def fromToOf (es : List GraphEdge) (k : String) : Option (String × String) :=
  (findEdge es k).map (fun e => (e.fromId, e.toId))

/-- One `addEdgeGo` adds its upload exactly onto the key it targets. -/
theorem upOf_addEdgeGo (es : List GraphEdge) (fromId toId : String)
    (weight up down : ℚ) (k : String) :
    upOf (addEdgeGo fromId toId weight up down es) k =
      upOf es k + (if fromId ++ "->" ++ toId = k then up else 0) := by
  induction es with
  | nil =>
      simp only [addEdgeGo, upOf, findEdge, List.find?]
      by_cases hk : fromId ++ "->" ++ toId = k
      · simp [hk]
      · simp [hk, (by simpa using hk : ((fromId ++ "->" ++ toId) == k) = false)]
  | cons e rest ih =>
      simp only [addEdgeGo]
      by_cases hb : (e.id == fromId ++ "->" ++ toId) = true
      · rw [if_pos hb]
        have hid : e.id = fromId ++ "->" ++ toId := by simpa using hb
        by_cases hk : (e.id == k) = true
        · have hk' : e.id = k := by simpa using hk
          simp [upOf, findEdge, List.find?, hk, ← hk', hid]
        · have hk' : ¬fromId ++ "->" ++ toId = k := by
            rw [← hid]; simpa using hk
          simp [upOf, findEdge, List.find?, hk, hk']
      · rw [if_neg hb]
        by_cases hk : (e.id == k) = true
        · have hk' : ¬fromId ++ "->" ++ toId = k := by
            intro h
            exact (by simpa using hb : ¬e.id = fromId ++ "->" ++ toId)
              (by rw [h]; exact (by simpa using hk))
          simp [upOf, findEdge, List.find?, hk, hk']
        · simpa [upOf, findEdge, List.find?, hk] using ih

/-- One `addEdgeGo` adds its download exactly onto the key it targets. -/
theorem downOf_addEdgeGo (es : List GraphEdge) (fromId toId : String)
    (weight up down : ℚ) (k : String) :
    downOf (addEdgeGo fromId toId weight up down es) k =
      downOf es k + (if fromId ++ "->" ++ toId = k then down else 0) := by
  induction es with
  | nil =>
      simp only [addEdgeGo, downOf, findEdge, List.find?]
      by_cases hk : fromId ++ "->" ++ toId = k
      · simp [hk]
      · simp [hk, (by simpa using hk : ((fromId ++ "->" ++ toId) == k) = false)]
  | cons e rest ih =>
      simp only [addEdgeGo]
      by_cases hb : (e.id == fromId ++ "->" ++ toId) = true
      · rw [if_pos hb]
        have hid : e.id = fromId ++ "->" ++ toId := by simpa using hb
        by_cases hk : (e.id == k) = true
        · have hk' : e.id = k := by simpa using hk
          simp [downOf, findEdge, List.find?, hk, ← hk', hid]
        · have hk' : ¬fromId ++ "->" ++ toId = k := by
            rw [← hid]; simpa using hk
          simp [downOf, findEdge, List.find?, hk, hk']
      · rw [if_neg hb]
        by_cases hk : (e.id == k) = true
        · have hk' : ¬fromId ++ "->" ++ toId = k := by
            intro h
            exact (by simpa using hb : ¬e.id = fromId ++ "->" ++ toId)
              (by rw [h]; exact (by simpa using hk))
          simp [downOf, findEdge, List.find?, hk, hk']
        · simpa [downOf, findEdge, List.find?, hk] using ih

/-- Replaying calls accumulates, per key, the sum of the matching calls'
uploads. -/
theorem upOf_applyCalls (cs : List EdgeCall) (es : List GraphEdge) (k : String) :
    upOf (applyCalls es cs) k =
      upOf es k + ((cs.filter (fun c => callId c == k)).map (·.up)).sum := by
  induction cs generalizing es with
  | nil => simp [applyCalls]
  | cons c rest ih =>
      simp only [applyCalls, List.foldl_cons] at *
      rw [ih, upOf_addEdgeGo]
      by_cases hk : callId c = k
      · simp only [callId] at hk
        simp [List.filter_cons, callId, hk]
        ring
      · simp only [callId] at hk
        simp [List.filter_cons, callId, hk]

/-- Replaying calls accumulates, per key, the sum of the matching calls'
downloads. -/
theorem downOf_applyCalls (cs : List EdgeCall) (es : List GraphEdge) (k : String) :
    downOf (applyCalls es cs) k =
      downOf es k + ((cs.filter (fun c => callId c == k)).map (·.down)).sum := by
  induction cs generalizing es with
  | nil => simp [applyCalls]
  | cons c rest ih =>
      simp only [applyCalls, List.foldl_cons] at *
      rw [ih, downOf_addEdgeGo]
      by_cases hk : callId c = k
      · simp only [callId] at hk
        simp [List.filter_cons, callId, hk]
        ring
      · simp only [callId] at hk
        simp [List.filter_cons, callId, hk]

/-- The key's edge endpoints after `addEdgeGo`: an existing edge keeps its
endpoints, a fresh key takes the call's endpoints. -/
theorem fromToOf_addEdgeGo (es : List GraphEdge) (fromId toId : String)
    (weight up down : ℚ) (k : String) :
    fromToOf (addEdgeGo fromId toId weight up down es) k =
      (match fromToOf es k with
       | some p => some p
       | none => if fromId ++ "->" ++ toId = k then some (fromId, toId) else none) := by
  induction es with
  | nil =>
      simp only [addEdgeGo, fromToOf, findEdge, List.find?]
      by_cases hk : fromId ++ "->" ++ toId = k
      · simp [hk]
      · simp [hk, (by simpa using hk : ((fromId ++ "->" ++ toId) == k) = false)]
  | cons e rest ih =>
      simp only [addEdgeGo]
      by_cases hb : (e.id == fromId ++ "->" ++ toId) = true
      · rw [if_pos hb]
        by_cases hk : (e.id == k) = true
        · simp [fromToOf, findEdge, List.find?, hk]
        · have hid : e.id = fromId ++ "->" ++ toId := by simpa using hb
          have hk' : ¬fromId ++ "->" ++ toId = k := by rw [← hid]; simpa using hk
          cases hfind : List.find? (fun e => e.id == k) rest <;>
            simp [fromToOf, findEdge, List.find?, hk, hfind, hk']
      · rw [if_neg hb]
        by_cases hk : (e.id == k) = true
        · simp [fromToOf, findEdge, List.find?, hk]
        · simpa [fromToOf, findEdge, List.find?, hk] using ih

/-- The key's edge endpoints after replaying calls from a state without
that key: the first matching call's endpoints. -/
theorem fromToOf_applyCalls (cs : List EdgeCall) (es : List GraphEdge) (k : String) :
    fromToOf (applyCalls es cs) k =
      (match fromToOf es k with
       | some p => some p
       | none => (cs.find? (fun c => callId c == k)).map
           (fun c => (c.fromId, c.toId))) := by
  induction cs generalizing es with
  | nil => cases h : fromToOf es k <;> simp [applyCalls, h]
  | cons c rest ih =>
      simp only [applyCalls, List.foldl_cons] at *
      rw [ih, fromToOf_addEdgeGo]
      cases h : fromToOf es k with
      | some p => simp
      | none =>
          by_cases hk : callId c = k
          · simp only [callId] at hk
            simp [List.find?, callId, hk]
          · simp only [callId] at hk
            simp [List.find?, callId, hk,
              (by simpa using hk : ((c.fromId ++ "->" ++ c.toId) == k) = false)]

/-- Every edge records its own key: `id = from ++ "->" ++ to`. -/
def EdgesShape (es : List GraphEdge) : Prop :=
  ∀ e ∈ es, e.id = e.fromId ++ "->" ++ e.toId

/-- `addEdgeGo` preserves the key/endpoint shape. -/
theorem edgesShape_addEdgeGo {es : List GraphEdge} (fromId toId : String)
    (weight up down : ℚ) (h : EdgesShape es) :
    EdgesShape (addEdgeGo fromId toId weight up down es) := by
  induction es with
  | nil =>
      intro e he
      simp only [addEdgeGo, List.mem_singleton] at he
      subst he; rfl
  | cons hd tl ih =>
      intro e he
      simp only [addEdgeGo] at he
      by_cases hb : (hd.id == fromId ++ "->" ++ toId) = true
      · rw [if_pos hb] at he
        rcases List.mem_cons.mp he with h' | h'
        · subst h'
          exact h hd (List.mem_cons_self ..)
        · exact h e (List.mem_cons_of_mem _ h')
      · rw [if_neg hb] at he
        rcases List.mem_cons.mp he with h' | h'
        · exact h' ▸ h hd (List.mem_cons_self ..)
        · exact ih (fun e he => h e (List.mem_cons_of_mem _ he)) e h'

/-- Replaying calls preserves the key/endpoint shape. -/
theorem edgesShape_applyCalls (cs : List EdgeCall) {es : List GraphEdge}
    (h : EdgesShape es) : EdgesShape (applyCalls es cs) := by
  induction cs generalizing es with
  | nil => exact h
  | cons c rest ih =>
      exact ih (edgesShape_addEdgeGo c.fromId c.toId c.weight c.up c.down h)

/-- Any key present after `addEdgeGo` was present before or is the added
key. -/
theorem mem_ids_addEdgeGo {fromId toId : String} {weight up down : ℚ}
    {es : List GraphEdge} {x : String}
    (hx : x ∈ (addEdgeGo fromId toId weight up down es).map (·.id)) :
    x ∈ es.map (·.id) ∨ x = fromId ++ "->" ++ toId := by
  induction es with
  | nil =>
      simp only [addEdgeGo, List.map_cons, List.map_nil, List.mem_singleton] at hx
      exact Or.inr hx
  | cons hd tl ih =>
      simp only [addEdgeGo] at hx
      by_cases hb : (hd.id == fromId ++ "->" ++ toId) = true
      · rw [if_pos hb] at hx
        simp only [List.map_cons, List.mem_cons] at hx
        rcases hx with h | h
        · exact Or.inl (by simp [h])
        · exact Or.inl (by simp [List.mem_cons]; right; simpa using h)
      · rw [if_neg hb] at hx
        simp only [List.map_cons, List.mem_cons] at hx
        rcases hx with h | h
        · exact Or.inl (by simp [h])
        · rcases ih h with h' | h'
          · exact Or.inl (by simp [List.mem_cons]; right; simpa using h')
          · exact Or.inr h'

/-- `addEdgeGo` keeps the edge keys duplicate-free. -/
theorem nodup_ids_addEdgeGo {fromId toId : String} {weight up down : ℚ}
    {es : List GraphEdge} (h : (es.map (·.id)).Nodup) :
    ((addEdgeGo fromId toId weight up down es).map (·.id)).Nodup := by
  induction es with
  | nil => simp [addEdgeGo]
  | cons hd tl ih =>
      simp only [List.map_cons, List.nodup_cons] at h
      simp only [addEdgeGo]
      by_cases hb : (hd.id == fromId ++ "->" ++ toId) = true
      · rw [if_pos hb]
        simp only [List.map_cons, List.nodup_cons]
        exact ⟨h.1, h.2⟩
      · rw [if_neg hb]
        simp only [List.map_cons, List.nodup_cons]
        refine ⟨?_, ih h.2⟩
        intro hmem
        rcases mem_ids_addEdgeGo hmem with h' | h'
        · exact h.1 h'
        · exact (by simpa using hb : ¬hd.id = fromId ++ "->" ++ toId) h'

/-- Replaying calls keeps the edge keys duplicate-free. -/
theorem nodup_ids_applyCalls (cs : List EdgeCall) {es : List GraphEdge}
    (h : (es.map (·.id)).Nodup) :
    ((applyCalls es cs).map (·.id)).Nodup := by
  induction cs generalizing es with
  | nil => exact h
  | cons c rest ih => exact ih (nodup_ids_addEdgeGo h)

/-- Every group-walk call carries the walk's fixed magnitudes. -/
theorem callsGroupLoop_values (gset : List String) (traffic up down : ℚ)
    (names : List String) (i : ℕ) (prevNode : String) :
    ∀ c ∈ (callsGroupLoop gset traffic up down names i prevNode).1,
      c.weight = traffic ∧ c.up = up ∧ c.down = down := by
  induction names generalizing i prevNode with
  | nil => intro c hc; cases hc
  | cons name rest ih =>
      intro c hc
      simp only [callsGroupLoop] at hc
      by_cases h1 : name = ""
      · rw [if_pos h1] at hc; exact ih _ _ c hc
      · rw [if_neg h1] at hc
        by_cases h2 : gset.contains name
        · rw [if_pos h2] at hc
          rcases List.mem_cons.mp hc with h' | h'
          · subst h'; exact ⟨rfl, rfl, rfl⟩
          · exact ih _ _ c h'
        · rw [if_neg h2] at hc; cases hc

theorem foldl_processConnection_edges (rules : List (String × Rule))
    (gset : List String) (getClientLabel : String → String) (pcol : ℕ)
    (conns : List Connection) (st : BuilderState) :
    (conns.foldl (processConnection rules gset getClientLabel pcol)
        st).edgesById =
      applyCalls st.edgesById (conns.flatMap (callsOfConn rules gset)) := by
  induction conns generalizing st with
  | nil => rfl
  | cons c rest ih =>
      rw [List.foldl_cons, ih, List.flatMap_cons,
        processConnection_edges]
      simp [applyCalls, List.foldl_append]

/-- Every call one connection contributes carries that connection's
clamped upload and download. -/
theorem callsOfConn_values (rules : List (String × Rule)) (gset : List String)
    (conn : Connection) :
    ∀ c ∈ callsOfConn rules gset conn,
      c.up = max 0 conn.uploadSpeed ∧ c.down = max 0 conn.downloadSpeed := by
  intro c hc
  simp only [callsOfConn, callsProxyChain, List.mem_cons, List.mem_append] at hc
  rcases hc with h | h | h
  · subst h; exact ⟨rfl, rfl⟩
  · have := callsGroupLoop_values gset
      (max 0 conn.uploadSpeed + max 0 conn.downloadSpeed)
      (max 0 conn.uploadSpeed) (max 0 conn.downloadSpeed)
      (chainReversedOf conn) 0 (ruleKeyOf rules conn) c h
    exact ⟨this.2.1, this.2.2⟩
  · revert h
    split
    · split
      · intro h; cases h
      · intro h
        have h' := List.mem_singleton.mp h
        subst h'; exact ⟨rfl, rfl⟩
    · intro h; cases h

end GraphBuilder

/-- A duplicate-free list whose members all equal one of its members is
that singleton. -/
theorem eq_singleton_of_nodup_of_all_eq {α : Type _} {l : List α} {e : α}
    (hnd : l.Nodup) (he : e ∈ l) (hall : ∀ x ∈ l, x = e) : l = [e] := by
  cases l with
  | nil => cases he
  | cons a l' =>
      have ha : a = e := hall a (List.mem_cons_self ..)
      subst ha
      cases l' with
      | nil => rfl
      | cons b l'' =>
          have hb : b = a := hall b (List.mem_cons_of_mem _ (List.mem_cons_self ..))
          exact absurd (hb ▸ List.mem_cons_self ..)
            (List.nodup_cons.mp hnd).1

/-- When the filtered list starts with `a`, `find?` returns `a`. -/
theorem find?_eq_of_filter_cons {α : Type _} {p : α → Bool} {l : List α}
    {a : α} {rest : List α} (h : l.filter p = a :: rest) :
    l.find? p = some a := by
  induction l generalizing rest with
  | nil => cases h
  | cons x xs ih =>
      by_cases hx : p x = true
      · rw [List.filter_cons_of_pos hx] at h
        simp only [List.find?, hx]
        exact congrArg some (List.cons_eq_cons.mp h).1
      · rw [List.filter_cons_of_neg hx] at h
        simp only [List.find?, hx]
        exact ih h

/-- **C5.** When two connections each traverse the hop `(s, t)` exactly once
in one build (and no other recorded call collides with that hop's key), the
built graph contains exactly one edge for that ordered pair, and its upload
and download are the sums of the two connections' clamped upload and
download speeds. -/
theorem shared_hop_yields_single_summed_edge
    (rules : List (String × Rule)) (gset : List String)
    (getClientLabel : String → String) (st : GraphBuilder.BuilderState)
    (c1 c2 : Connection) (s t : String)
    (h1 : ((GraphBuilder.callsOfConn rules gset c1).filter
        (fun c => GraphBuilder.callId c == s ++ "->" ++ t)).length = 1)
    (h2 : ((GraphBuilder.callsOfConn rules gset c2).filter
        (fun c => GraphBuilder.callId c == s ++ "->" ++ t)).length = 1)
    (hst : ∀ c ∈ GraphBuilder.callsOfConn rules gset c1 ++
        GraphBuilder.callsOfConn rules gset c2,
      GraphBuilder.callId c = s ++ "->" ++ t → c.fromId = s ∧ c.toId = t) :
    ∃ e, (GraphBuilder.build rules gset st [c1, c2] getClientLabel).2.edges.filter
          (fun e => e.fromId == s && e.toId == t) = [e] ∧
        e.up = max 0 c1.uploadSpeed + max 0 c2.uploadSpeed ∧
        e.down = max 0 c1.downloadSpeed + max 0 c2.downloadSpeed := by
  obtain ⟨a, ha⟩ := List.length_eq_one.mp h1
  obtain ⟨b, hb⟩ := List.length_eq_one.mp h2
  set k := s ++ "->" ++ t with hkdef
  set cs1 := GraphBuilder.callsOfConn rules gset c1 with hcs1
  set cs2 := GraphBuilder.callsOfConn rules gset c2 with hcs2
  set E := (GraphBuilder.build rules gset st [c1, c2] getClientLabel).2.edges with hEdef
  have hedges : E = GraphBuilder.applyCalls [] (cs1 ++ cs2) := by
    rw [hEdef]
    simp only [GraphBuilder.build, GraphBuilder.generateGraphData]
    rw [GraphBuilder.foldl_processConnection_edges]
    simp [GraphBuilder.reset, GraphBuilder.applyCalls]
  have hfilter : (cs1 ++ cs2).filter (fun c => GraphBuilder.callId c == k) = [a, b] := by
    rw [List.filter_append, ha, hb]; rfl
  have hfind : (cs1 ++ cs2).find? (fun c => GraphBuilder.callId c == k) = some a :=
    find?_eq_of_filter_cons hfilter
  have hamem : a ∈ cs1 ∧ GraphBuilder.callId a = k := by
    have h := List.mem_filter.mp (ha ▸ List.mem_singleton.mpr rfl)
    exact ⟨h.1, by simpa using h.2⟩
  have hbmem : b ∈ cs2 ∧ GraphBuilder.callId b = k := by
    have h := List.mem_filter.mp (hb ▸ List.mem_singleton.mpr rfl)
    exact ⟨h.1, by simpa using h.2⟩
  have hafromto : a.fromId = s ∧ a.toId = t :=
    hst a (List.mem_append_left _ hamem.1) hamem.2
  have hft : GraphBuilder.fromToOf E k = some (s, t) := by
    rw [hedges, GraphBuilder.fromToOf_applyCalls, hfind]
    simp [GraphBuilder.fromToOf, GraphBuilder.findEdge, hafromto.1, hafromto.2]
  obtain ⟨e, hfe, hef, het⟩ :=
    (by simpa [GraphBuilder.fromToOf] using hft :
      ∃ e : GraphBuilder.GraphEdge,
        GraphBuilder.findEdge E k = some e ∧ e.fromId = s ∧ e.toId = t)
  have hepair : e.fromId = s ∧ e.toId = t := ⟨hef, het⟩
  have hemem : e ∈ E :=
    List.mem_of_find?_eq_some (by simpa [GraphBuilder.findEdge] using hfe)
  have heid : e.id = k := by
    have := List.find?_some (p := fun e : GraphBuilder.GraphEdge => e.id == k)
      (by simpa [GraphBuilder.findEdge] using hfe)
    simpa using this
  have hupval : GraphBuilder.upOf E k = a.up + b.up := by
    rw [hedges, GraphBuilder.upOf_applyCalls, hfilter]
    show GraphBuilder.upOf [] k + _ = _
    simp [GraphBuilder.upOf, GraphBuilder.findEdge]
  have hdownval : GraphBuilder.downOf E k = a.down + b.down := by
    rw [hedges, GraphBuilder.downOf_applyCalls, hfilter]
    show GraphBuilder.downOf [] k + _ = _
    simp [GraphBuilder.downOf, GraphBuilder.findEdge]
  have heup : e.up = GraphBuilder.upOf E k := by
    rw [GraphBuilder.upOf, hfe]
  have hedown : e.down = GraphBuilder.downOf E k := by
    rw [GraphBuilder.downOf, hfe]
  have hshape : GraphBuilder.EdgesShape E := by
    rw [hedges]
    exact GraphBuilder.edgesShape_applyCalls _ (fun e he => absurd he (List.not_mem_nil e))
  have hnd : (E.map (·.id)).Nodup := by
    rw [hedges]
    exact GraphBuilder.nodup_ids_applyCalls _ (by simp)
  refine ⟨e, ?_, ?_, ?_⟩
  · have hefilt : e ∈ E.filter (fun e => e.fromId == s && e.toId == t) :=
      List.mem_filter.mpr ⟨hemem, by simp [hepair.1, hepair.2]⟩
    have hall : ∀ x ∈ E.filter (fun e => e.fromId == s && e.toId == t), x = e := by
      intro x hx
      obtain ⟨hxmem, hxp⟩ := List.mem_filter.mp hx
      simp only [Bool.and_eq_true, beq_iff_eq] at hxp
      have hxid : x.id = k := by rw [hshape x hxmem, hxp.1, hxp.2]
      exact List.inj_on_of_nodup_map hnd hxmem hemem (hxid.trans heid.symm)
    exact eq_singleton_of_nodup_of_all_eq
      (List.Nodup.filter _ (List.Nodup.of_map _ hnd)) hefilt hall
  · rw [heup, hupval, (GraphBuilder.callsOfConn_values rules gset c1 a hamem.1).1,
      (GraphBuilder.callsOfConn_values rules gset c2 b hbmem.1).1]
  · rw [hedown, hdownval, (GraphBuilder.callsOfConn_values rules gset c1 a hamem.1).2,
      (GraphBuilder.callsOfConn_values rules gset c2 b hbmem.1).2]

/-- First connection of the shared-hop example. -/
def connShareA : Connection :=
  { chains := ["PX"], sourceIP := "5.5.5.5", uploadSpeed := 3,
    downloadSpeed := 1, rule := "DIRECT", rulePayload := "p" }

/-- Second connection of the shared-hop example: same route, different
speeds. -/
def connShareB : Connection :=
  { chains := ["PX"], sourceIP := "5.5.5.5", uploadSpeed := 4,
    downloadSpeed := 2, rule := "DIRECT", rulePayload := "p" }

/-- Witness for `shared_hop_yields_single_summed_edge`: two concrete
connections traversing the same rule→proxy hop produce one edge with
summed upload `3 + 4` and download `1 + 2`. -/
theorem shared_hop_yields_single_summed_edge_witness :
    ∃ e, (GraphBuilder.build [] [] ⟨[], [], 0⟩ [connShareA, connShareB]
          (fun ip => ip)).2.edges.filter
          (fun e => e.fromId == "rule:" ++ ("DIRECT" ++ ":" ++ "p") &&
            e.toId == "proxy:" ++ "PX") = [e] ∧
        e.up = max 0 connShareA.uploadSpeed + max 0 connShareB.uploadSpeed ∧
        e.down = max 0 connShareA.downloadSpeed + max 0 connShareB.downloadSpeed :=
  shared_hop_yields_single_summed_edge [] [] (fun ip => ip) ⟨[], [], 0⟩
    connShareA connShareB ("rule:" ++ ("DIRECT" ++ ":" ++ "p")) ("proxy:" ++ "PX")
    (by decide) (by decide) (by decide)

/-! ## C8: wheel zoom keeps the point under the cursor fixed
(`src/composables/topology/interaction.ts`, `handleWheel`) -/

/-- `handleWheel`: compute the new (clamped) scale and the new offsets from
a wheel event; returns `(targetScale, targetX, targetY)`. -/
def handleWheel (deltaY mouseX mouseY renderScale renderOffsetX renderOffsetY : ℚ) :
    ℚ × ℚ × ℚ :=
  let delta : ℚ := if deltaY > 0 then 9 / 10 else 11 / 10
  let baseScale := renderScale
  let targetScale := max (1 / 10) (min 5 (baseScale * delta))
  let targetX := mouseX - (mouseX - renderOffsetX) * (targetScale / baseScale)
  let targetY := mouseY - (mouseY - renderOffsetY) * (targetScale / baseScale)
  (targetScale, targetX, targetY)

section WheelZoom

attribute [local irreducible] Rat.add Rat.mul Rat.sub Rat.inv

/-- **C8.** For every wheel event at screen point `(mouseX, mouseY)` taking
the view from (non-zero) scale `S` to the clamped new scale `S'`, the new
offset satisfies `P = S' * graphPointUnderP + newOffset` in both axes: the
graph-space point under the cursor stays fixed. -/
theorem wheel_zoom_keeps_pointer_fixed
    (deltaY mouseX mouseY renderScale renderOffsetX renderOffsetY : ℚ)
    (hS : renderScale ≠ 0) :
    (handleWheel deltaY mouseX mouseY renderScale renderOffsetX renderOffsetY).1 *
          ((mouseX - renderOffsetX) / renderScale) +
        (handleWheel deltaY mouseX mouseY renderScale renderOffsetX renderOffsetY).2.1 =
      mouseX ∧
    (handleWheel deltaY mouseX mouseY renderScale renderOffsetX renderOffsetY).1 *
          ((mouseY - renderOffsetY) / renderScale) +
        (handleWheel deltaY mouseX mouseY renderScale renderOffsetX renderOffsetY).2.2 =
      mouseY := by
  have key : ∀ S' mx ox : ℚ,
      S' * ((mx - ox) / renderScale) + (mx - (mx - ox) * (S' / renderScale)) = mx := by
    intro S' mx ox
    field_simp
    ring
  simp only [handleWheel]
  exact ⟨key _ _ _, key _ _ _⟩

end WheelZoom

/-- Witness for `wheel_zoom_keeps_pointer_fixed` at a concrete wheel-out
event. -/
theorem wheel_zoom_keeps_pointer_fixed_witness :
    (handleWheel 1 100 80 1 20 10).1 * ((100 - 20) / 1) +
        (handleWheel 1 100 80 1 20 10).2.1 = 100 ∧
      (handleWheel 1 100 80 1 20 10).1 * ((80 - 10) / 1) +
        (handleWheel 1 100 80 1 20 10).2.2 = 80 :=
  wheel_zoom_keeps_pointer_fixed 1 100 80 1 20 10 (by decide)

/-! ## C9: the hover-related node set
(`TopologyHome.vue`, `makeSeqForConn` / `updateRelatedNodes`) -/

/-- `makeSeqForConn`: the full client→rule→groups→proxy node-id sequence
of one connection's path. -/
def makeSeqForConn (rules : List (String × Rule)) (gset : List String)
    (conn : Connection) : List String :=
  let clientId := "client:" ++ (if conn.sourceIP = "" then "inner" else conn.sourceIP)
  let reversed := chainReversedOf conn
  let root := reversed.headD ""
  let ruleId :=
    match (if root = "" then none else rulesMapGet rules root) with
    | some r => "rule:" ++ (r.type ++ ":" ++ r.payload ++ ":" ++ normalizeName r.proxy)
    | none => "rule:" ++ (conn.rule ++ ":" ++ conn.rulePayload)
  let groups := (reversed.filter (fun n => gset.contains n)).map (fun n => "group:" ++ n)
  [clientId, ruleId] ++ groups ++
    (match GraphBuilder.fallbackLeaf gset reversed with
     | some leaf => if leaf = "" then [] else ["proxy:" ++ leaf]
     | none => [])

/-- `updateRelatedNodes`: clear the set; with a hovered id, add every node
of every connection sequence that contains the hovered id. The JS `Set` is
modelled as the accumulated list, queried by membership. -/
def updateRelatedNodes (rules : List (String × Rule)) (gset : List String)
    (hoveredNodeId : Option String) (conns : List Connection) : List String :=
  match hoveredNodeId with
  | none => []
  | some hid =>
      conns.foldl (fun acc conn =>
        let seq := makeSeqForConn rules gset conn
        if seq.contains hid then acc ++ seq else acc) []

/-- Membership in the related-set fold. -/
theorem mem_updateRelatedNodes_foldl (rules : List (String × Rule))
    (gset : List String) (hid : String) (conns : List Connection)
    (acc : List String) (x : String) :
    (x ∈ conns.foldl (fun acc conn =>
        let seq := makeSeqForConn rules gset conn
        if seq.contains hid then acc ++ seq else acc) acc) ↔
      x ∈ acc ∨ ∃ conn ∈ conns, hid ∈ makeSeqForConn rules gset conn ∧
        x ∈ makeSeqForConn rules gset conn := by
  induction conns generalizing acc with
  | nil => simp
  | cons c rest ih =>
      rw [List.foldl_cons]
      by_cases hc : ((makeSeqForConn rules gset c).contains hid) = true
      · have hc' : hid ∈ makeSeqForConn rules gset c := by
          simpa using hc
        simp only [hc, if_pos]
        rw [ih]
        simp only [List.mem_append, List.mem_cons]
        constructor
        · rintro ((h | h) | ⟨conn, hconn, h1, h2⟩)
          · exact Or.inl h
          · exact Or.inr ⟨c, Or.inl rfl, hc', h⟩
          · exact Or.inr ⟨conn, Or.inr hconn, h1, h2⟩
        · rintro (h | ⟨conn, hconn, h1, h2⟩)
          · exact Or.inl (Or.inl h)
          · rcases hconn with rfl | hconn
            · exact Or.inl (Or.inr h2)
            · exact Or.inr ⟨conn, hconn, h1, h2⟩
      · have hc' : hid ∉ makeSeqForConn rules gset c := by
          simpa using hc
        simp only [hc]
        rw [if_neg (by simp [hc])]
        rw [ih]
        simp only [List.mem_cons]
        constructor
        · rintro (h | ⟨conn, hconn, h1, h2⟩)
          · exact Or.inl h
          · exact Or.inr ⟨conn, Or.inr hconn, h1, h2⟩
        · rintro (h | ⟨conn, hconn, h1, h2⟩)
          · exact Or.inl h
          · rcases hconn with rfl | hconn
            · exact absurd h1 hc'
            · exact Or.inr ⟨conn, hconn, h1, h2⟩

/-- **C9.** For a hovered node `hid`, membership in the computed related
set is exactly membership in the union of the full node sequences of the
connections whose sequence contains `hid`; with no hovered node the set is
empty. -/
theorem hover_related_set_is_exact_union :
    (∀ (rules : List (String × Rule)) (gset : List String) (hid : String)
        (conns : List Connection) (x : String),
      x ∈ updateRelatedNodes rules gset (some hid) conns ↔
        ∃ conn ∈ conns, hid ∈ makeSeqForConn rules gset conn ∧
          x ∈ makeSeqForConn rules gset conn) ∧
    (∀ (rules : List (String × Rule)) (gset : List String)
        (conns : List Connection),
      updateRelatedNodes rules gset none conns = []) := by
  constructor
  · intro rules gset hid conns x
    rw [updateRelatedNodes, mem_updateRelatedNodes_foldl]
    simp
  · intro rules gset conns
    rfl

/-! ## C10: normalization denominators
(`useMaxTraffic`, `aggregatePathTraffic` denominators, `scaleEdgeWidth`) -/

/-- `getConnectionTraffic`. -/
def getConnectionTraffic (conn : Connection) : ℚ :=
  conn.downloadSpeed + conn.uploadSpeed

/-- `useMaxTraffic`: 1 for an empty list, else the maximum traffic if it is
positive, else 1. -/
def useMaxTraffic (conns : List Connection) : ℚ :=
  match conns.map getConnectionTraffic with
  | [] => 1
  | t :: ts => let m := ts.foldl max t; if 0 < m then m else 1

/-- The maximum upload speed scanned by `aggregatePathTraffic`. -/
def maxUploadOf (conns : List Connection) : ℚ :=
  conns.foldl (fun m c => if c.uploadSpeed > m then c.uploadSpeed else m) 0

/-- The maximum download speed scanned by `aggregatePathTraffic`. -/
def maxDownloadOf (conns : List Connection) : ℚ :=
  conns.foldl (fun m c => if c.downloadSpeed > m then c.downloadSpeed else m) 0

/-- `uploadDenom = Math.max(1, maxUpload)`. -/
def uploadDenomOf (conns : List Connection) : ℚ := max 1 (maxUploadOf conns)

/-- `downloadDenom = Math.max(1, maxDownload)`. -/
def downloadDenomOf (conns : List Connection) : ℚ := max 1 (maxDownloadOf conns)

/-- `STYLES.edgeMin`. -/
def edgeMin : ℚ := 1

/-- `STYLES.edgeMax`. -/
def edgeMax : ℚ := 12

/-- `scaleEdgeWidth`: minimum width for a non-positive maximum, else a
clamped linear scale between `edgeMin` and `edgeMax`. -/
def scaleEdgeWidth (weight maxWeight : ℚ) : ℚ :=
  if maxWeight ≤ 0 then edgeMin
  else edgeMin + (edgeMax - edgeMin) * (max 0 (min 1 (weight / maxWeight)))

/-- A connection with a sub-unit traffic rate. -/
def connFracW : Connection :=
  { chains := ["P"], sourceIP := "1.2.3.4", uploadSpeed := 1 / 2,
    downloadSpeed := 0, rule := "DIRECT", rulePayload := "" }

/-- **C10 counterexample.** The maximum-traffic normalizer is *not* always
at least 1: with a single connection whose traffic is `1/2`, `useMaxTraffic`
returns `1/2 < 1` (the guard only replaces non-positive maxima by 1). -/
theorem useMaxTraffic_can_be_below_one :
    useMaxTraffic [connFracW] = 1 / 2 ∧ useMaxTraffic [connFracW] < 1 := by
  constructor <;> decide

/-- A list of non-positive elements folds under `max` to a non-positive
value. -/
theorem foldl_max_nonpos {t : ℚ} {ts : List ℚ} (ht : t ≤ 0)
    (hts : ∀ x ∈ ts, x ≤ 0) : ts.foldl max t ≤ 0 := by
  induction ts generalizing t with
  | nil => exact ht
  | cons x xs ih =>
      rw [List.foldl_cons]
      exact ih (max_le ht (hts x (List.mem_cons_self ..)))
        (fun y hy => hts y (List.mem_cons_of_mem _ hy))

/-- **C10 amended.** Every traffic-normalization denominator is guarded away
from zero: `useMaxTraffic` is always strictly positive, equal to 1 when the
connection list is empty or no connection has positive traffic (though for
a positive fractional maximum it returns that maximum, which can be below
1); the per-direction particle denominators are always at least 1; and edge
width scaling returns the minimum width whenever `maxWeight` is not
positive. -/
theorem traffic_denominators_guarded :
    (∀ conns : List Connection, 0 < useMaxTraffic conns) ∧
    useMaxTraffic [] = 1 ∧
    (∀ conns : List Connection,
      (∀ c ∈ conns, getConnectionTraffic c ≤ 0) → useMaxTraffic conns = 1) ∧
    (∀ conns : List Connection,
      1 ≤ uploadDenomOf conns ∧ 1 ≤ downloadDenomOf conns) ∧
    (∀ weight maxWeight : ℚ, maxWeight ≤ 0 →
      scaleEdgeWidth weight maxWeight = edgeMin) := by
  refine ⟨?_, rfl, ?_, ?_, ?_⟩
  · intro conns
    rw [useMaxTraffic]
    split
    · norm_num
    · simp only
      split
      · assumption
      · norm_num
  · intro conns hnp
    rw [useMaxTraffic]
    split
    · rfl
    · next t ts hmap =>
        simp only
        rw [if_neg]
        intro hpos
        have hall : ∀ x ∈ t :: ts, x ≤ 0 := by
          intro x hx
          have : x ∈ conns.map getConnectionTraffic := hmap ▸ hx
          obtain ⟨c, hc, rfl⟩ := List.mem_map.mp this
          exact hnp c hc
        exact absurd hpos (not_lt.mpr (foldl_max_nonpos
          (hall t (List.mem_cons_self ..))
          (fun y hy => hall y (List.mem_cons_of_mem _ hy))))
  · intro conns
    exact ⟨le_max_left 1 _, le_max_left 1 _⟩
  · intro weight maxWeight h
    rw [scaleEdgeWidth, if_pos h]

/-- A connection with zero traffic. -/
def connZeroW : Connection :=
  { chains := ["P"], sourceIP := "1.2.3.4", uploadSpeed := 0,
    downloadSpeed := 0, rule := "DIRECT", rulePayload := "" }

/-- Witness for `traffic_denominators_guarded` at concrete inputs: an
all-zero list normalizes with 1, and a zero `maxWeight` yields the minimum
edge width. -/
theorem traffic_denominators_guarded_witness :
    0 < useMaxTraffic [connFracW] ∧
      useMaxTraffic [connZeroW] = 1 ∧
      (1 ≤ uploadDenomOf [connZeroW] ∧ 1 ≤ downloadDenomOf [connZeroW]) ∧
      scaleEdgeWidth 5 0 = edgeMin :=
  ⟨traffic_denominators_guarded.1 [connFracW],
    traffic_denominators_guarded.2.2.1 [connZeroW] (by decide),
    traffic_denominators_guarded.2.2.2.1 [connZeroW],
    traffic_denominators_guarded.2.2.2.2 5 0 (by decide)⟩

/-! ## The particle system
(`src/components/topology/ParticleSystem.ts` / the inline copy in
`TopologyHome.vue`; `Math.random` is modelled by an oracle `rng : ℕ → ℚ`
consumed at an index counter carried in the state, and the Konva shape of a
particle is omitted — it is a pure rendering handle). -/

namespace ParticleSystem

/-- `ParticleLane`. -/
inductive ParticleLane where
  | up
  | down
deriving DecidableEq, Repr

/-- The lane part of a residual key. -/
def laneStr : ParticleLane → String
  | .up => "up"
  | .down => "down"

/-- A path-following particle (`Particle` in the source, minus the Konva
circle). -/
structure Particle where
  pathId : String
  segments : List String
  segIdx : ℤ
  edgeId : String
  t : ℚ
  dir : ℤ
  speed : ℚ
  speedFactor : ℚ
  size : ℚ
  lane : ParticleLane
deriving DecidableEq, Repr

/-- `PARTICLE_CONSTANTS.MAX_PARTICLES`. -/
def MAX_PARTICLES : ℕ := 1500

/-- `PARTICLE_CONSTANTS.BASE_PPS`. -/
def BASE_PPS : ℚ := 2

/-- `PARTICLE_CONSTANTS.MAX_PPS`. -/
def MAX_PPS : ℚ := 40

/-- `PARTICLE_CONSTANTS.MIN_SPEED`. -/
def MIN_SPEED : ℚ := 0.35

/-- `PARTICLE_CONSTANTS.MAX_SPEED`. -/
def MAX_SPEED : ℚ := 1.5

/-- The particle system's mutable state: the particle list, the spawn
residual map, the last frame time, and the random-oracle cursor. -/
structure PState where
  particles : List Particle
  spawnResiduals : List (String × ℚ)
  lastUpdateTime : ℚ
  randIdx : ℕ
deriving DecidableEq, Repr

/-- Set-or-append on an association list (JS `Map.set`). -/
def setAssoc {α : Type} : List (String × α) → String → α → List (String × α)
  | [], k, v => [(k, v)]
  | (k', v') :: rest, k, v =>
      if k' == k then (k', v) :: rest else (k', v') :: setAssoc rest k v

/-- `spawnResiduals.get(key) || 0`. -/
def residualGet (st : PState) (key : String) : ℚ :=
  match st.spawnResiduals.find? (fun p => p.1 == key) with
  | some p => p.2
  | none => 0

/-- `spawnResiduals.set(key, v)`. -/
def residualSet (st : PState) (key : String) (v : ℚ) : PState :=
  { st with spawnResiduals := setAssoc st.spawnResiduals key v }

/-- A `PathTraffic` record. -/
structure PathTraffic where
  pathId : String
  segments : List String
  up : ℚ
  down : ℚ
deriving DecidableEq, Repr

/-- `makeEdgeSequence`: the consecutive-pair edge ids of a node sequence
that currently exist. -/
def makeEdgeSequence (edgeIds : List String) : List String → List String
  | a :: b :: rest =>
      (if edgeIds.contains (a ++ "->" ++ b) then [a ++ "->" ++ b] else []) ++
        makeEdgeSequence edgeIds (b :: rest)
  | _ => []

/-- `aggregatePathTraffic`: per-path accumulated, per-direction normalized
intensities, clamped to `[0, 1]`. -/
def aggregatePathTraffic (rules : List (String × Rule)) (gset : List String)
    (edgeIds : List String) (connections : List Connection) : List PathTraffic :=
  if connections.isEmpty then []
  else
    let uploadDenom := uploadDenomOf connections
    let downloadDenom := downloadDenomOf connections
    let pathMap := connections.foldl (fun m conn =>
      let nodeSeq := makeSeqForConn rules gset conn
      let edgeSeq := makeEdgeSequence edgeIds nodeSeq
      if edgeSeq.isEmpty then m
      else
        let pathId := String.intercalate "->" nodeSeq
        let existing := match (m.find? (fun p => p.1 == pathId)).map (·.2) with
          | some e => e
          | none => (edgeSeq, (0 : ℚ), (0 : ℚ))
        setAssoc m pathId
          (existing.1, existing.2.1 + max 0 (conn.uploadSpeed / uploadDenom),
            existing.2.2 + max 0 (conn.downloadSpeed / downloadDenom)))
      ([] : List (String × List String × ℚ × ℚ))
    pathMap.map (fun p =>
      { pathId := p.1, segments := p.2.1, up := min 1 p.2.2.1,
        down := min 1 p.2.2.2 })

/-- The segment-crossing `while` loop of `moveParticles` (fuel-indexed; the
fuel passed by `moveOne` strictly exceeds the iterations the loop can
make). Returns `none` when the particle leaves its path. -/
def segLoop (fuel : ℕ) (p : Particle) : Option Particle :=
  match fuel with
  | 0 => some p
  | fuel + 1 =>
      if p.t < 0 ∨ p.t > 1 then
        if p.dir > 0 ∧ p.t > 1 then
          let q := { p with segIdx := p.segIdx + 1, t := p.t - 1 }
          if q.segIdx < (0 : ℤ) ∨ (q.segments.length : ℤ) ≤ q.segIdx then none
          else segLoop fuel { q with edgeId := q.segments.getD q.segIdx.toNat "" }
        else if p.dir < 0 ∧ p.t < 0 then
          let q := { p with segIdx := p.segIdx - 1, t := p.t + 1 }
          if q.segIdx < (0 : ℤ) ∨ (q.segments.length : ℤ) ≤ q.segIdx then none
          else segLoop fuel { q with edgeId := q.segments.getD q.segIdx.toNat "" }
        else some p
      else some p

/-- The per-particle body of `moveParticles`: raise the speed to the
intensity-implied candidate when that is higher (never lower it), advance
`t`, then cross segments; `none` means the particle was removed. -/
def moveOne (deltaTime : ℚ) (intensityMap : List (String × ℚ × ℚ))
    (p : Particle) : Option Particle :=
  let intensity := (intensityMap.find? (fun q => q.1 == p.pathId)).map (·.2)
  let laneIntensity := match intensity with
    | some i => (match p.lane with | .up => i.1 | .down => i.2)
    | none => 0
  let clampedIntensity := max 0.25 laneIntensity
  let candidateSpeed :=
    MIN_SPEED + (MAX_SPEED - MIN_SPEED) * p.speedFactor * clampedIntensity
  let speed := if candidateSpeed > p.speed then candidateSpeed else p.speed
  let p' := { p with speed := speed, t := p.t + speed * deltaTime * p.dir }
  segLoop (⌈p'.t⌉.natAbs + p'.segments.length + 2) p'

/-- `moveParticles` over the whole list (the reverse-index loop with
in-place removal acts independently per particle). -/
def moveParticles (deltaTime : ℚ) (intensityMap : List (String × ℚ × ℚ))
    (particles : List Particle) : List Particle :=
  particles.filterMap (moveOne deltaTime intensityMap)

/-- The spawn `for` loop of `spawnParticlesForLane`: push up to `n` new
particles while the global cap allows. -/
def spawnLoop (rng : ℕ → ℚ) (pathId : String) (segments : List String)
    (lane : ParticleLane) (intensity : ℚ) (direction : ℤ) :
    ℕ → PState → PState
  | 0, st => st
  | n + 1, st =>
      if st.particles.length < MAX_PARTICLES then
        let speedFactor := 1 / 2 + 1 / 2 * rng st.randIdx
        let speed :=
          MIN_SPEED + (MAX_SPEED - MIN_SPEED) * speedFactor * max 0.25 intensity
        let size := 1.2 + rng (st.randIdx + 1) * 1.8
        let segmentIndex : ℤ := if direction = 1 then 0 else (segments.length : ℤ) - 1
        let initialT :=
          if direction = 1 then rng (st.randIdx + 2) * 0.08
          else 1 - rng (st.randIdx + 2) * 0.08
        let particle : Particle :=
          { pathId := pathId, segments := segments, segIdx := segmentIndex,
            edgeId := segments.getD segmentIndex.toNat "", t := initialT,
            dir := direction, speed := speed, speedFactor := speedFactor,
            size := size, lane := lane }
        spawnLoop rng pathId segments lane intensity direction n
          { st with particles := st.particles ++ [particle],
                    randIdx := st.randIdx + 3 }
      else st

/-- `spawnParticlesForLane`: accumulate the fractional spawn residual, take
the floor, store the remainder, cap the burst at 10 and spawn (respecting
the global cap). -/
def spawnParticlesForLane (rng : ℕ → ℚ) (pathId : String)
    (segments : List String) (lane : ParticleLane) (intensity : ℚ)
    (direction : ℤ) (deltaTime : ℚ) (st : PState) : PState :=
  if segments.isEmpty then st
  else
    let key := pathId ++ "|" ++ laneStr lane
    let particlesPerSecond := BASE_PPS + MAX_PPS * intensity
    let wantedCount := particlesPerSecond * deltaTime + residualGet st key
    let spawnCount : ℤ := ⌊wantedCount⌋
    let st := residualSet st key (wantedCount - spawnCount)
    let spawnCount' := min spawnCount 10
    spawnLoop rng pathId segments lane intensity direction spawnCount'.toNat st

/-- `spawnNewParticles`: spawn per aggregated path and lane when the lane's
intensity is non-negligible. -/
def spawnNewParticles (rng : ℕ → ℚ) (pathTrafficList : List PathTraffic)
    (deltaTime : ℚ) (st : PState) : PState :=
  pathTrafficList.foldl (fun st pt =>
    let st := if pt.up > 0.0001 then
        spawnParticlesForLane rng pt.pathId pt.segments .up pt.up 1 deltaTime st
      else st
    if pt.down > 0.0001 then
      spawnParticlesForLane rng pt.pathId pt.segments .down pt.down (-1) deltaTime st
    else st) st

/-- `advanceParticles`: compute `dt`, clear everything when no edges exist,
else move existing particles and spawn new ones. -/
def advanceParticles (rules : List (String × Rule)) (gset : List String)
    (rng : ℕ → ℚ) (st : PState) (now : ℚ) (connections : List Connection)
    (edgeIds : List String) : PState :=
  let deltaTime := max 0.001 ((now - st.lastUpdateTime) / 1000)
  let st := { st with lastUpdateTime := now }
  if edgeIds.isEmpty then { st with particles := [] }
  else
    let pathTrafficList := aggregatePathTraffic rules gset edgeIds connections
    let intensityMap := pathTrafficList.map (fun p => (p.pathId, p.up, p.down))
    let st := { st with
      particles := moveParticles deltaTime intensityMap st.particles }
    spawnNewParticles rng pathTrafficList deltaTime st

/-- `pruneInvalidParticles`: drop particles whose current edge is gone. -/
def pruneInvalidParticles (st : PState) (validEdgeIds : List String) : PState :=
  { st with particles := st.particles.filter (fun p => validEdgeIds.contains p.edgeId) }

/-- One animation frame, as scheduled in `start`: prune, then advance. -/
structure FrameInput where
  now : ℚ
  connections : List Connection
  edgeIds : List String
deriving DecidableEq, Repr

/-- One frame of the particle animation. -/
def frame (rules : List (String × Rule)) (gset : List String) (rng : ℕ → ℚ)
    (st : PState) (input : FrameInput) : PState :=
  advanceParticles rules gset rng (pruneInvalidParticles st input.edgeIds)
    input.now input.connections input.edgeIds

/-- `setAssoc` stores the value under the key. -/
theorem map_find?_setAssoc {α : Type} (m : List (String × α)) (k : String) (v : α) :
    ((setAssoc m k v).find? (fun p => p.1 == k)).map (·.2) = some v := by
  induction m with
  | nil => simp [setAssoc, List.find?]
  | cons hd tl ih =>
      simp only [setAssoc]
      by_cases hk : (hd.1 == k) = true
      · rw [if_pos hk]
        simp [List.find?, hk]
      · rw [if_neg hk]
        simpa [List.find?, hk] using ih

/-- Reading back a just-stored residual returns it. -/
theorem residualGet_residualSet (st : PState) (key : String) (v : ℚ) :
    residualGet (residualSet st key v) key = v := by
  unfold residualGet residualSet
  obtain ⟨p, hp, hv⟩ := Option.map_eq_some'.mp
    (map_find?_setAssoc st.spawnResiduals key v)
  simp only at hp ⊢
  rw [hp]
  exact hv

/-- `spawnLoop` never touches the residual map. -/
theorem spawnLoop_spawnResiduals (rng : ℕ → ℚ) (pathId : String)
    (segments : List String) (lane : ParticleLane) (intensity : ℚ)
    (direction : ℤ) (n : ℕ) (st : PState) :
    (spawnLoop rng pathId segments lane intensity direction n st).spawnResiduals =
      st.spawnResiduals := by
  induction n generalizing st with
  | zero => rfl
  | succ n ih =>
      simp only [spawnLoop]
      by_cases h : st.particles.length < MAX_PARTICLES
      · rw [if_pos h, ih]
      · rw [if_neg h]

/-- `spawnLoop` pushes exactly `n` particles, stopping at the global cap. -/
theorem spawnLoop_length (rng : ℕ → ℚ) (pathId : String)
    (segments : List String) (lane : ParticleLane) (intensity : ℚ)
    (direction : ℤ) (n : ℕ) (st : PState)
    (h : st.particles.length ≤ MAX_PARTICLES) :
    (spawnLoop rng pathId segments lane intensity direction n st).particles.length =
      min (st.particles.length + n) MAX_PARTICLES := by
  induction n generalizing st with
  | zero =>
      simp only [spawnLoop]
      omega
  | succ n ih =>
      simp only [spawnLoop]
      by_cases hlt : st.particles.length < MAX_PARTICLES
      · rw [if_pos hlt]
        refine (ih _ ?_).trans ?_
        · simp
          omega
        · simp
          omega
      · rw [if_neg hlt]
        omega

/-- `spawnLoop` respects the global cap. -/
theorem spawnLoop_length_le (rng : ℕ → ℚ) (pathId : String)
    (segments : List String) (lane : ParticleLane) (intensity : ℚ)
    (direction : ℤ) (n : ℕ) (st : PState)
    (h : st.particles.length ≤ MAX_PARTICLES) :
    (spawnLoop rng pathId segments lane intensity direction n st).particles.length ≤
      MAX_PARTICLES := by
  rw [spawnLoop_length rng pathId segments lane intensity direction n st h]
  omega

/-- `spawnParticlesForLane` respects the global cap. -/
theorem spawnParticlesForLane_length_le (rng : ℕ → ℚ) (pathId : String)
    (segments : List String) (lane : ParticleLane) (intensity : ℚ)
    (direction : ℤ) (deltaTime : ℚ) (st : PState)
    (h : st.particles.length ≤ MAX_PARTICLES) :
    (spawnParticlesForLane rng pathId segments lane intensity direction deltaTime
        st).particles.length ≤ MAX_PARTICLES := by
  unfold spawnParticlesForLane
  by_cases hseg : segments.isEmpty
  · rw [if_pos hseg]; exact h
  · rw [if_neg hseg]
    exact spawnLoop_length_le _ _ _ _ _ _ _ _ h

/-- `spawnNewParticles` respects the global cap. -/
theorem spawnNewParticles_length_le (rng : ℕ → ℚ)
    (pathTrafficList : List PathTraffic) (deltaTime : ℚ) (st : PState)
    (h : st.particles.length ≤ MAX_PARTICLES) :
    (spawnNewParticles rng pathTrafficList deltaTime st).particles.length ≤
      MAX_PARTICLES := by
  unfold spawnNewParticles
  induction pathTrafficList generalizing st with
  | nil => exact h
  | cons pt rest ih =>
      rw [List.foldl_cons]
      apply ih
      by_cases hup : pt.up > 0.0001 <;> by_cases hdown : pt.down > 0.0001 <;>
        simp only [hup, hdown, ite_true, ite_false] <;>
        first
          | exact spawnParticlesForLane_length_le _ _ _ _ _ _ _ _
              (spawnParticlesForLane_length_le _ _ _ _ _ _ _ _ h)
          | exact spawnParticlesForLane_length_le _ _ _ _ _ _ _ _ h
          | exact h

/-- Moving removes or keeps particles; it never adds. -/
theorem moveParticles_length_le (deltaTime : ℚ)
    (intensityMap : List (String × ℚ × ℚ)) (particles : List Particle) :
    (moveParticles deltaTime intensityMap particles).length ≤ particles.length :=
  List.length_filterMap_le _ _

/-- One `advanceParticles` step respects the global cap. -/
theorem advanceParticles_length_le (rules : List (String × Rule))
    (gset : List String) (rng : ℕ → ℚ) (st : PState) (now : ℚ)
    (connections : List Connection) (edgeIds : List String)
    (h : st.particles.length ≤ MAX_PARTICLES) :
    (advanceParticles rules gset rng st now connections edgeIds).particles.length ≤
      MAX_PARTICLES := by
  unfold advanceParticles
  by_cases he : edgeIds.isEmpty
  · simp only [he, if_pos]
    exact Nat.zero_le _
  · simp only [he, Bool.false_eq_true, if_false]
    apply spawnNewParticles_length_le
    exact le_trans (moveParticles_length_le _ _ _) h

/-- A whole frame (prune, then advance) respects the global cap. -/
theorem frame_length_le (rules : List (String × Rule)) (gset : List String)
    (rng : ℕ → ℚ) (st : PState) (input : FrameInput)
    (h : st.particles.length ≤ MAX_PARTICLES) :
    (frame rules gset rng st input).particles.length ≤ MAX_PARTICLES := by
  unfold frame
  apply advanceParticles_length_le
  exact le_trans (List.length_filter_le _ _) h

end ParticleSystem

/-- **C6.** Per path and lane, a frame spawns
`min(⌊pps·dt + residual⌋, burst cap 10)` particles — also cut off at the
global cap of 1500 — and stores exactly the fractional remainder
`want - ⌊want⌋` as the next frame's residual; and over any sequence of
frames the number of live particles never exceeds the global cap. -/
theorem spawn_floor_capped_and_global_cap :
    (∀ (rng : ℕ → ℚ) (pathId : String) (segments : List String)
        (lane : ParticleSystem.ParticleLane) (intensity : ℚ) (direction : ℤ)
        (deltaTime : ℚ) (st : ParticleSystem.PState),
      segments ≠ [] →
      st.particles.length ≤ ParticleSystem.MAX_PARTICLES →
      ParticleSystem.residualGet
          (ParticleSystem.spawnParticlesForLane rng pathId segments lane
            intensity direction deltaTime st)
          (pathId ++ "|" ++ ParticleSystem.laneStr lane) =
        ((ParticleSystem.BASE_PPS + ParticleSystem.MAX_PPS * intensity) * deltaTime +
            ParticleSystem.residualGet st
              (pathId ++ "|" ++ ParticleSystem.laneStr lane)) -
          ⌊(ParticleSystem.BASE_PPS + ParticleSystem.MAX_PPS * intensity) * deltaTime +
            ParticleSystem.residualGet st
              (pathId ++ "|" ++ ParticleSystem.laneStr lane)⌋ ∧
      (ParticleSystem.spawnParticlesForLane rng pathId segments lane intensity
          direction deltaTime st).particles.length =
        min (st.particles.length +
            (min ⌊(ParticleSystem.BASE_PPS + ParticleSystem.MAX_PPS * intensity) *
                deltaTime +
              ParticleSystem.residualGet st
                (pathId ++ "|" ++ ParticleSystem.laneStr lane)⌋ 10).toNat)
          ParticleSystem.MAX_PARTICLES) ∧
    (∀ (rules : List (String × Rule)) (gset : List String) (rng : ℕ → ℚ)
        (inputs : List ParticleSystem.FrameInput) (st : ParticleSystem.PState),
      st.particles.length ≤ ParticleSystem.MAX_PARTICLES →
      (inputs.foldl (ParticleSystem.frame rules gset rng) st).particles.length ≤
        ParticleSystem.MAX_PARTICLES) := by
  constructor
  · intro rng pathId segments lane intensity direction deltaTime st hseg hlen
    have hne : segments.isEmpty = false := by
      cases segments with
      | nil => exact absurd rfl hseg
      | cons a l => rfl
    have hres : ∀ (n : ℕ) (st' : ParticleSystem.PState) (k : String),
        ParticleSystem.residualGet
            (ParticleSystem.spawnLoop rng pathId segments lane intensity
              direction n st') k =
          ParticleSystem.residualGet st' k := by
      intro n st' k
      unfold ParticleSystem.residualGet
      rw [ParticleSystem.spawnLoop_spawnResiduals]
    simp only [ParticleSystem.spawnParticlesForLane, hne, Bool.false_eq_true,
      if_false]
    constructor
    · rw [hres]
      exact ParticleSystem.residualGet_residualSet st _ _
    · refine (ParticleSystem.spawnLoop_length rng pathId segments lane intensity
          direction _ _ ?_).trans ?_
      · exact hlen
      · rfl
  · intro rules gset rng inputs st h
    induction inputs generalizing st with
    | nil => exact h
    | cons i rest ih =>
        exact ih _ (ParticleSystem.frame_length_le rules gset rng st i h)

/-- A fixed random oracle for the witnesses. -/
def rngW : ℕ → ℚ := fun _ => 1 / 2

/-- An empty particle-system state. -/
def pstEmpty : ParticleSystem.PState :=
  { particles := [], spawnResiduals := [], lastUpdateTime := 0, randIdx := 0 }

/-- A concrete frame input. -/
def frameW : ParticleSystem.FrameInput :=
  { now := 16, connections := [], edgeIds := ["x"] }

/-- Witness for `spawn_floor_capped_and_global_cap`: at intensity 1 with
`dt = 1` a lane wants `⌊2 + 40⌋ = 42` particles, spawns `min 42 10 = 10`,
keeps residual 0, and a frame sequence stays under the global cap. -/
theorem spawn_floor_capped_and_global_cap_witness :
    ParticleSystem.residualGet
        (ParticleSystem.spawnParticlesForLane rngW "p" ["e1"] .up 1 1 1 pstEmpty)
        ("p" ++ "|" ++ ParticleSystem.laneStr .up) =
      ((ParticleSystem.BASE_PPS + ParticleSystem.MAX_PPS * 1) * 1 +
          ParticleSystem.residualGet pstEmpty
            ("p" ++ "|" ++ ParticleSystem.laneStr .up)) -
        ⌊(ParticleSystem.BASE_PPS + ParticleSystem.MAX_PPS * 1) * 1 +
          ParticleSystem.residualGet pstEmpty
            ("p" ++ "|" ++ ParticleSystem.laneStr .up)⌋ ∧
    (ParticleSystem.spawnParticlesForLane rngW "p" ["e1"] .up 1 1 1
        pstEmpty).particles.length =
      min (pstEmpty.particles.length +
          (min ⌊(ParticleSystem.BASE_PPS + ParticleSystem.MAX_PPS * 1) * 1 +
            ParticleSystem.residualGet pstEmpty
              ("p" ++ "|" ++ ParticleSystem.laneStr .up)⌋ 10).toNat)
        ParticleSystem.MAX_PARTICLES ∧
    ([frameW].foldl (ParticleSystem.frame [] [] rngW) pstEmpty).particles.length ≤
      ParticleSystem.MAX_PARTICLES :=
  ⟨(spawn_floor_capped_and_global_cap.1 rngW "p" ["e1"] .up 1 1 1 pstEmpty
      (by decide) (by decide)).1,
    (spawn_floor_capped_and_global_cap.1 rngW "p" ["e1"] .up 1 1 1 pstEmpty
      (by decide) (by decide)).2,
    spawn_floor_capped_and_global_cap.2 [] [] rngW [frameW] pstEmpty (by decide)⟩

/-! ## C7: particle speed never decreases -/

namespace ParticleSystem

/-- The segment-crossing loop never changes the stored speed. -/
theorem segLoop_speed (fuel : ℕ) :
    ∀ p q : Particle, segLoop fuel p = some q → q.speed = p.speed := by
  induction fuel with
  | zero =>
      intro p q h
      simp only [segLoop] at h
      injection h with h
      rw [← h]
  | succ n ih =>
      intro p q h
      simp only [segLoop] at h
      split at h
      · split at h
        · split at h
          · exact absurd h (by simp)
          · exact (ih _ _ h).trans rfl
        · split at h
          · split at h
            · exact absurd h (by simp)
            · exact (ih _ _ h).trans rfl
          · injection h with h
            rw [← h]
      · injection h with h
        rw [← h]

/-- A value never exceeds its conditional raise. -/
theorem le_ite_raise (a b : ℚ) : a ≤ if b > a then b else a := by
  split
  · exact le_of_lt (by assumption)
  · exact le_refl a

/-- The per-particle advance step never decreases the stored speed. -/
theorem moveOne_speed (deltaTime : ℚ) (intensityMap : List (String × ℚ × ℚ))
    (p q : Particle) (h : moveOne deltaTime intensityMap p = some q) :
    p.speed ≤ q.speed := by
  simp only [moveOne] at h
  have hs := segLoop_speed _ _ _ h
  rw [hs]
  exact le_ite_raise p.speed _

/-- Folding `moveOne` over frames from a removed particle stays removed. -/
theorem foldl_moveOne_none (frames : List (ℚ × List (String × ℚ × ℚ))) :
    frames.foldl (fun acc f => acc.bind (moveOne f.1 f.2)) none = none := by
  induction frames with
  | nil => rfl
  | cons f fs ih => simpa using ih

end ParticleSystem

/-- **C7.** Over any sequence of frames (each with its own `dt` and
intensity map), a particle that survives has a speed at least its original
speed: the advance step only ever replaces the speed by a larger
intensity-implied candidate. -/
theorem particle_speed_never_decreases
    (frames : List (ℚ × List (String × ℚ × ℚ)))
    (p p' : ParticleSystem.Particle)
    (h : frames.foldl (fun acc f => acc.bind (ParticleSystem.moveOne f.1 f.2))
        (some p) = some p') :
    p.speed ≤ p'.speed := by
  induction frames generalizing p with
  | nil =>
      rw [List.foldl_nil] at h
      injection h with h
      rw [h]
  | cons f fs ih =>
      rw [List.foldl_cons] at h
      cases hm : ParticleSystem.moveOne f.1 f.2 p with
      | none =>
          rw [show (some p).bind (ParticleSystem.moveOne f.1 f.2) = none by
            simp [hm]] at h
          rw [ParticleSystem.foldl_moveOne_none] at h
          cases h
      | some q =>
          rw [show (some p).bind (ParticleSystem.moveOne f.1 f.2) = some q by
            simp [hm]] at h
          exact le_trans (ParticleSystem.moveOne_speed f.1 f.2 p q hm) (ih q h)

/-- A concrete slow particle. -/
def particleW : ParticleSystem.Particle :=
  { pathId := "p", segments := ["e"], segIdx := 0, edgeId := "e", t := 0,
    dir := 1, speed := 1 / 10, speedFactor := 1, size := 1, lane := .up }

/-- `particleW` after one frame with `dt = 1` and no path intensity: the
speed rose to the clamped candidate `0.35 + 1.15 · 0.25 = 51/80`. -/
def particleW' : ParticleSystem.Particle :=
  { pathId := "p", segments := ["e"], segIdx := 0, edgeId := "e", t := 51 / 80,
    dir := 1, speed := 51 / 80, speedFactor := 1, size := 1, lane := .up }

/-- Witness for `particle_speed_never_decreases` on one concrete frame. -/
theorem particle_speed_never_decreases_witness :
    particleW.speed ≤ particleW'.speed :=
  particle_speed_never_decreases [(1, [])] particleW particleW' (by decide)

end Zashboard
